import Mathlib

/-!
# FovControl (`src/red4ext/main.cpp`): unit converter and lock state machine

A shallow embedding of the native part of the plugin.

* `float` values are embedded as exact rationals (`ℚ`): table constants are the
  decimal literals of the source, comparisons and arithmetic are exact, rounding
  is not modelled.
* Process memory is a function from addresses to bytes (naturals below 256);
  a pointer is a natural number and `nullptr` is `none`.
* The two Windows services the code relies on are taken as inputs: the `.text`
  region reported by `GetTextSection` is a field of the state, and the outcome
  of the protection change requested by `Write3` is an argument of every
  operation that can reach `Write3`.
* Every stateful function returns its result paired with the state it leaves.
  `LogError` writes to the host's logger only and is left out.
* Where a property depends on rounding, the converter is embedded a second time in
  single precision (`ConvertFormat32`): every literal and every operation is rounded
  to the nearest binary32 value, ties to even, and NaN and the infinities are values.
-/

namespace FovControl

/-! ## Unit converter -/

/-- One calibration entry, `struct FovPair`. -/
structure FovPair where
  internalFov : ℚ
  displayFov : ℚ
  deriving DecidableEq

/-- The calibration table `fovTable`, entry for entry as in the source. -/
def fovTable : List FovPair := [
  ⟨0.33750209, 0.0⟩,
  ⟨3.15171504, 5.0⟩,
  ⟨5.97414541, 10.0⟩,
  ⟨8.81220150, 15.0⟩,
  ⟨11.67340946, 20.0⟩,
  ⟨14.56548882, 25.0⟩,
  ⟨17.49640465, 30.0⟩,
  ⟨20.47442627, 35.0⟩,
  ⟨23.50821114, 40.0⟩,
  ⟨26.60686302, 45.0⟩,
  ⟨29.77999878, 50.0⟩,
  ⟨33.03782654, 55.0⟩,
  ⟨36.39122391, 60.0⟩,
  ⟨39.85181808, 65.0⟩,
  ⟨43.43202972, 70.0⟩,
  ⟨47.14517975, 75.0⟩,
  ⟨51.00551605, 80.0⟩,
  ⟨55.02826691, 85.0⟩,
  ⟨59.22966766, 90.0⟩,
  ⟨63.62687683, 95.0⟩,
  ⟨68.23798370, 100.0⟩,
  ⟨73.08179474, 105.0⟩,
  ⟨78.17757416, 110.0⟩,
  ⟨83.54468536, 115.0⟩,
  ⟨89.20195007, 120.0⟩,
  ⟨95.16699982, 125.0⟩,
  ⟨101.45520020, 130.0⟩,
  ⟨108.07840730, 135.0⟩,
  ⟨115.04350280, 140.0⟩,
  ⟨122.35076900, 145.0⟩,
  ⟨129.99212650, 150.0⟩,
  ⟨137.94955440, 155.0⟩,
  ⟨146.19392390, 160.0⟩,
  ⟨154.68443290, 165.0⟩,
  ⟨163.36904910, 170.0⟩,
  ⟨172.18605040, 175.0⟩]

/-- The entry count `n = sizeof(fovTable) / sizeof(fovTable[0])`. -/
def tableSize : Nat := fovTable.length

/-- Indexing `fovTable[i]`; every access made by `ConvertFormat` is in bounds. -/
def entry (i : Nat) : FovPair := fovTable.getD i ⟨0, 0⟩

/-- The lambda `getX`: the source axis for the chosen direction. -/
def getX (inverse : Bool) (p : FovPair) : ℚ :=
  if inverse then p.displayFov else p.internalFov

/-- The lambda `getY`: the target axis for the chosen direction. -/
def getY (inverse : Bool) (p : FovPair) : ℚ :=
  if inverse then p.internalFov else p.displayFov

/-- The segment loop `for (size_t i = 1; i < n; ++i)` of `ConvertFormat`, entered
at index `i`; leaving the loop yields the fallback `getY(fovTable[n - 1])`. -/
def segmentLoop (x : ℚ) (inverse : Bool) (i : Nat) : ℚ :=
  if i < tableSize then
    let lo := entry (i - 1)
    let hi := entry i
    let xLo := getX inverse lo
    let xHi := getX inverse hi
    if x ≤ xHi then
      let t := (x - xLo) / (xHi - xLo)
      let yLo := getY inverse lo
      let yHi := getY inverse hi
      yLo + t * (yHi - yLo)
    else
      segmentLoop x inverse (i + 1)
  else
    getY inverse (entry (tableSize - 1))
termination_by tableSize - i

/-- The function `ConvertFormat(float x, bool inverse)`. -/
def ConvertFormat (x : ℚ) (inverse : Bool) : ℚ :=
  if tableSize = 0 then x
  else
    let xMin := getX inverse (entry 0)
    let xMax := getX inverse (entry (tableSize - 1))
    if x ≤ xMin then getY inverse (entry 0)
    else if x ≥ xMax then getY inverse (entry (tableSize - 1))
    else segmentLoop x inverse 1

/-- The value computed inside the loop body for the segment ending at index `j`:
`yLo + t * (yHi - yLo)` with `t = (x - xLo) / (xHi - xLo)`. -/
def lerpAt (x : ℚ) (inverse : Bool) (j : Nat) : ℚ :=
  getY inverse (entry (j - 1)) +
    (x - getX inverse (entry (j - 1))) / (getX inverse (entry j) - getX inverse (entry (j - 1))) *
      (getY inverse (entry j) - getY inverse (entry (j - 1)))

/-! ## Patch engine -/

/-- Patched (locked) pattern `kPatOn`. -/
def kPatOn : List Nat := [
  0x42, 0x08, 0x89, 0x41, 0x08, 0x0F, 0x10, 0x42,
  0x10, 0x0F, 0x11, 0x41, 0x10, 0x8B, 0x42, 0x20,
  0x90, 0x90, 0x90, 0x8B, 0x42, 0x24, 0x89, 0x41,
  0x24, 0x8B, 0x42, 0x28, 0x89, 0x41, 0x28, 0x8B]

/-- Original (unlocked) pattern `kPatOff`. -/
def kPatOff : List Nat := [
  0x42, 0x08, 0x89, 0x41, 0x08, 0x0F, 0x10, 0x42,
  0x10, 0x0F, 0x11, 0x41, 0x10, 0x8B, 0x42, 0x20,
  0x89, 0x41, 0x20, 0x8B, 0x42, 0x24, 0x89, 0x41,
  0x24, 0x8B, 0x42, 0x28, 0x89, 0x41, 0x28, 0x8B]

/-- The pattern length `kLen = sizeof(kPatOff)`. -/
def kLen : Nat := kPatOff.length

/-- The offset `kDiff` of the patched bytes inside the pattern. -/
def kDiff : Nat := 16

/-- Payload `kOn` for the locked state. -/
def kOn : List Nat := [0x90, 0x90, 0x90]

/-- Payload `kOff` for the unlocked state. -/
def kOff : List Nat := [0x89, 0x41, 0x20]

/-- The process as the patch engine sees it: the bytes of memory, the `.text`
region `(base, size)` that `GetTextSection` finds (`none` when it fails), and the
two globals `g_patch` (`none` is `nullptr`) and `g_patchEnabled`. -/
structure State where
  mem : Nat → Nat
  text : Option (Nat × Nat)
  g_patch : Option Nat
  g_patchEnabled : Bool

/-- The test `std::memcmp(p, bytes, len) == 0`. -/
def memcmpEq (mem : Nat → Nat) (p : Nat) (bytes : List Nat) (len : Nat) : Bool :=
  (List.range len).all (fun i => mem (p + i) == bytes.getD i 0)

/-- The call `std::memcpy(dst, bytes, len)`: the memory afterwards. -/
def memcpy (mem : Nat → Nat) (dst : Nat) (bytes : List Nat) (len : Nat) : Nat → Nat :=
  fun a => if dst ≤ a ∧ a < dst + len then bytes.getD (a - dst) 0 else mem a

/-- The function `GetTextSection`: the header walk is the host's business, its
result is read off the state. -/
def GetTextSection (s : State) : Option (Nat × Nat) := s.text

/-- The scan loop `for (auto *cur = base; cur <= end; ++cur)` of `FindPattern`,
entered at `cur` with `count` start positions left up to and including `end`. -/
def scanLoop (mem : Nat → Nat) (pat : List Nat) : Nat → Nat → Option Nat
  | _, 0 => none
  | cur, count + 1 =>
    if memcmpEq mem cur pat kLen then some cur
    else scanLoop mem pat (cur + 1) count

/-- The function `FindPattern(pat)`; `end = base + size - kLen`, so the loop visits
`size - kLen + 1` start positions. -/
def FindPattern (s : State) (pat : List Nat) : Option Nat :=
  match GetTextSection s with
  | none => none
  | some (base, size) =>
    if size < kLen then none
    else scanLoop s.mem pat base (size - kLen + 1)

/-- The function `EnsureTarget()`: the result and the state it leaves. -/
def EnsureTarget (s : State) : Bool × State :=
  match s.g_patch with
  | some _ => (true, s)
  | none =>
    match FindPattern s kPatOff with
    | some p => (true, { s with g_patch := some (p + kDiff) })
    | none =>
      match FindPattern s kPatOn with
      | some p => (true, { s with g_patch := some (p + kDiff) })
      | none => (false, s)

/-- The function `Write3(bytes)`. `protectOk` is what the first `VirtualProtect`
call reports; the cache flush and the restoring `VirtualProtect` call leave the
modelled state alone and the result of the latter is ignored by the code. -/
def Write3 (bytes : List Nat) (protectOk : Bool) (s : State) : Bool × State :=
  if !s.g_patchEnabled then (false, s)
  else
    let r := EnsureTarget s
    if !r.1 then (false, r.2)
    else if !protectOk then (false, r.2)
    else (true, { r.2 with mem := memcpy r.2.mem (r.2.g_patch.getD 0) bytes 3 })

/-- The function `ApplyPatch(enable)`. -/
def ApplyPatch (enable : Bool) (protectOk : Bool) (s : State) : Bool × State :=
  Write3 (if enable then kOn else kOff) protectOk s

/-- The function `IsPatchingAllowed()`. -/
def IsPatchingAllowed (s : State) : Bool × State :=
  if !s.g_patchEnabled then (false, s) else EnsureTarget s

/-- The function `PreventPatching()`. -/
def PreventPatching (s : State) : Bool × State :=
  (true, { s with g_patchEnabled := false })

/-- The function `ReleasePatching()`. -/
def ReleasePatching (s : State) : Bool × State :=
  (true, { s with g_patchEnabled := true })

/-- The function `IsLocked()`. -/
def IsLocked (s : State) : Bool × State :=
  let r := EnsureTarget s
  if !r.1 then (false, r.2)
  else (memcmpEq r.2.mem (r.2.g_patch.getD 0) kOn kOn.length, r.2)

/-- The function `SetLocked(enable)`. -/
def SetLocked (enable : Bool) (protectOk : Bool) (s : State) : Bool × State :=
  let r := EnsureTarget s
  if !r.1 then (false, r.2)
  else
    let l := IsLocked r.2
    if enable == l.1 then (true, l.2)
    else ApplyPatch enable protectOk l.2

/-- The function `Lock()`. -/
def Lock (protectOk : Bool) (s : State) : Bool × State := SetLocked true protectOk s

/-- The function `Unlock()`. -/
def Unlock (protectOk : Bool) (s : State) : Bool × State := SetLocked false protectOk s

/-- The function `Toggle()`. -/
def Toggle (protectOk : Bool) (s : State) : Bool × State :=
  let r := EnsureTarget s
  if !r.1 then (false, r.2)
  else
    let l := IsLocked r.2
    ApplyPatch (!l.1) protectOk l.2

/-! ## Sample processes -/

/-- A 64-byte `.text` region at address 4096 holding `bytes`, zero elsewhere. -/
def sampleMem (bytes : List Nat) : Nat → Nat :=
  fun a => if 4096 ≤ a ∧ a < 4096 + 64 then bytes.getD (a - 4096) 0xCC else 0

/-- A freshly loaded process whose code holds the unlocked pattern at offset 8:
target unresolved, gate open. -/
def freshUnlocked : State :=
  { mem := sampleMem (List.replicate 8 0xCC ++ kPatOff),
    text := some (4096, 64), g_patch := none, g_patchEnabled := true }

/-- The same process with the target resolved and the locked payload in place. -/
def resolvedLocked : State :=
  { mem := sampleMem (List.replicate 8 0xCC ++ kPatOn),
    text := some (4096, 64), g_patch := some 4120, g_patchEnabled := true }

/-- A freshly loaded process whose code already holds the locked pattern at offset 8:
target unresolved, gate open. -/
def freshLocked : State :=
  { mem := sampleMem (List.replicate 8 0xCC ++ kPatOn),
    text := some (4096, 64), g_patch := none, g_patchEnabled := true }

/-- A process whose `.text` region holds neither pattern: target unresolved, gate open. -/
def noPattern : State :=
  { mem := sampleMem [], text := some (4096, 64), g_patch := none, g_patchEnabled := true }

/-! ## Notions the claims are stated with -/

/-- The `kLen` bytes of memory starting at address `a` equal `pat` byte for byte
(for a pattern of `kLen` bytes `pat.getD k 0` is its byte `k`). -/
def MatchAt (mem : Nat → Nat) (pat : List Nat) (a : Nat) : Prop :=
  ∀ k, k < kLen → mem (a + k) = pat.getD k 0

/-- The pattern `pat` occurs at address `a` of the code region: the region is located,
it is at least `kLen` bytes long, `a` is one of the start positions
`base, ..., base + size - kLen`, and the bytes there match. -/
def Occurs (s : State) (pat : List Nat) (a : Nat) : Prop :=
  ∃ base size, GetTextSection s = some (base, size) ∧ kLen ≤ size ∧
    base ≤ a ∧ a ≤ base + (size - kLen) ∧ MatchAt s.mem pat a

/-- The address `a` is the first occurrence of `pat` in the code region. -/
def FirstMatch (s : State) (pat : List Nat) (a : Nat) : Prop :=
  Occurs s pat a ∧ ∀ b, b < a → ¬ Occurs s pat b

/-- The operations the module registers for scripts; the three that can reach
`Write3` carry the outcome of the protection change of that call. -/
inductive Op where
  | isPatchingAllowed
  | preventPatching
  | releasePatching
  | isLocked
  | lock (protectOk : Bool)
  | unlock (protectOk : Bool)
  | toggleLock (protectOk : Bool)
  deriving DecidableEq

/-- The state one operation leaves. -/
def Op.step (s : State) : Op → State
  | .isPatchingAllowed => (IsPatchingAllowed s).2
  | .preventPatching => (PreventPatching s).2
  | .releasePatching => (ReleasePatching s).2
  | .isLocked => (IsLocked s).2
  | .lock protectOk => (Lock protectOk s).2
  | .unlock protectOk => (Unlock protectOk s).2
  | .toggleLock protectOk => (Toggle protectOk s).2

/-- The state a sequence of operations leaves, first operation first. -/
def runOps (s : State) (ops : List Op) : State :=
  ops.foldl Op.step s

/-- The patch site is intact: a resolved target lies 16 bytes into a run of `kLen`
bytes that equals one of the two patterns. -/
def SiteIntact (s : State) : Prop :=
  ∀ t, s.g_patch = some t →
    16 ≤ t ∧ (MatchAt s.mem kPatOn (t - 16) ∨ MatchAt s.mem kPatOff (t - 16))

/-! ## The converter in single precision -/

/-- A `float`: a finite value `m * 2^-149` (every finite binary32 value is such a
multiple), an infinity, or NaN. The two zeros are not told apart: every comparison
treats them as equal, and a division by zero, the one place where the sign of a zero
would show, is taken as a division by the positive zero. -/
inductive F32 where
  | fin (m : Int)
  | posInf
  | negInf
  | nan
  deriving DecidableEq

/-- The integer nearest to `n / d`, ties to the even one. -/
def roundHalfEven (n d : Nat) : Nat :=
  let q := n / d
  let r := n % d
  if 2 * r < d then q
  else if d < 2 * r then q + 1
  else if q % 2 = 0 then q
  else q + 1

/-- The exponent of the spacing of binary32 values around `q` units of `2^-149`: the
number of halvings that bring `q` below `2^24`, which is `e - 23` for `q` in
`[2^e, 2^(e+1))` with `24 <= e` and `0` below. The first argument bounds the number
of halvings and is passed as `q` itself. -/
def spacingExp : Nat → Nat → Nat
  | 0, _ => 0
  | fuel + 1, q => if q < 2 ^ 24 then 0 else spacingExp fuel (q / 2) + 1

/-- The binary32 magnitude nearest to `n / d` units of `2^-149`, ties to even: below
`2^24` units consecutive values are one unit apart, and in `[2^e, 2^(e+1))` with
`24 <= e` they are `2^(e-23)` units apart. -/
def roundMag (n d : Nat) : Nat :=
  let sh := spacingExp (n / d) (n / d)
  roundHalfEven n (d * 2 ^ sh) * 2 ^ sh

/-- Rounding of the exact value `num / den` units to binary32 (round to nearest, ties
to even); a magnitude that rounds to `2^128` or more overflows to an infinity. -/
def F32.round (num : Int) (den : Nat) : F32 :=
  let m := roundMag num.natAbs den
  if 2 ^ 128 ≤ m / 2 ^ 149 then (if 0 ≤ num then F32.posInf else F32.negInf)
  else if 0 ≤ num then F32.fin m
  else F32.fin (-m)

/-- The `float` literal with decimal digits `digits` and `scale` digits after the
point, such as `F32.lit 33750209 8` for `0.33750209f`. -/
def F32.lit (digits scale : Nat) : F32 :=
  F32.round (digits * 2 ^ 149) (10 ^ scale)

/-- The comparison `a <= b` of two floats; false when either is NaN. -/
def F32.le : F32 → F32 → Bool
  | F32.nan, _ => false
  | _, F32.nan => false
  | F32.negInf, _ => true
  | _, F32.posInf => true
  | F32.fin a, F32.fin b => decide (a ≤ b)
  | F32.posInf, _ => false
  | F32.fin _, F32.negInf => false

/-- The sum `a + b` of two floats. -/
def F32.add : F32 → F32 → F32
  | F32.fin a, F32.fin b => F32.round (a + b) 1
  | F32.nan, _ => F32.nan
  | _, F32.nan => F32.nan
  | F32.posInf, F32.negInf => F32.nan
  | F32.negInf, F32.posInf => F32.nan
  | F32.posInf, _ => F32.posInf
  | F32.negInf, _ => F32.negInf
  | F32.fin _, F32.posInf => F32.posInf
  | F32.fin _, F32.negInf => F32.negInf

/-- The difference `a - b` of two floats. -/
def F32.sub : F32 → F32 → F32
  | F32.fin a, F32.fin b => F32.round (a - b) 1
  | F32.nan, _ => F32.nan
  | _, F32.nan => F32.nan
  | F32.posInf, F32.posInf => F32.nan
  | F32.negInf, F32.negInf => F32.nan
  | F32.posInf, _ => F32.posInf
  | F32.negInf, _ => F32.negInf
  | F32.fin _, F32.posInf => F32.negInf
  | F32.fin _, F32.negInf => F32.posInf

/-- The sign of a float as seen by multiplication and division; zero counts as
positive. -/
def F32.isNeg : F32 → Bool
  | F32.fin m => decide (m < 0)
  | F32.negInf => true
  | _ => false

/-- The product `a * b` of two floats. -/
def F32.mul : F32 → F32 → F32
  | F32.fin a, F32.fin b => F32.round (a * b) (2 ^ 149)
  | F32.nan, _ => F32.nan
  | _, F32.nan => F32.nan
  | a, b =>
    if a = F32.fin 0 ∨ b = F32.fin 0 then F32.nan
    else if a.isNeg = b.isNeg then F32.posInf
    else F32.negInf

/-- The quotient `a / b` of two floats. -/
def F32.div : F32 → F32 → F32
  | F32.nan, _ => F32.nan
  | _, F32.nan => F32.nan
  | F32.fin a, F32.fin b =>
    if b = 0 then
      (if a = 0 then F32.nan else if 0 < a then F32.posInf else F32.negInf)
    else if 0 < b then F32.round (a * 2 ^ 149) b.natAbs
    else F32.round (-(a * 2 ^ 149)) b.natAbs
  | F32.fin _, _ => F32.fin 0
  | a, F32.fin b => if a.isNeg = decide (b < 0) then F32.posInf else F32.negInf
  | _, _ => F32.nan

/-- The digits of the literals of `fovTable`: `internalFov` with 8 digits after the
point and `displayFov` as a whole number. -/
def fovDigits : List (Nat × Nat) := [
  (33750209, 0),
  (315171504, 5),
  (597414541, 10),
  (881220150, 15),
  (1167340946, 20),
  (1456548882, 25),
  (1749640465, 30),
  (2047442627, 35),
  (2350821114, 40),
  (2660686302, 45),
  (2977999878, 50),
  (3303782654, 55),
  (3639122391, 60),
  (3985181808, 65),
  (4343202972, 70),
  (4714517975, 75),
  (5100551605, 80),
  (5502826691, 85),
  (5922966766, 90),
  (6362687683, 95),
  (6823798370, 100),
  (7308179474, 105),
  (7817757416, 110),
  (8354468536, 115),
  (8920195007, 120),
  (9516699982, 125),
  (10145520020, 130),
  (10807840730, 135),
  (11504350280, 140),
  (12235076900, 145),
  (12999212650, 150),
  (13794955440, 155),
  (14619392390, 160),
  (15468443290, 165),
  (16336904910, 170),
  (17218605040, 175)]

/-- One calibration entry as the compiled code holds it. -/
structure FovPair32 where
  internalFov : F32
  displayFov : F32
  deriving DecidableEq

/-- The table `fovTable` as the compiled code holds it: every literal rounded to
`float`. -/
def fovTable32 : List FovPair32 :=
  fovDigits.map (fun p => ⟨F32.lit p.1 8, F32.lit p.2 0⟩)

/-- The entries of `fovTable32` written out, in units of `2^-149`. -/
def fovValues32 : List FovPair32 := [
  ⟨F32.fin 240849541133015595546094202900692411147616256, F32.fin 0⟩,
  ⟨F32.fin 2249139009600991352038339121333504680528969728, F32.fin 3568119231764899702645714923623737840956866560⟩,
  ⟨F32.fin 4263292627901059438747410273758927504954884096, F32.fin 7136238463529799405291429847247475681913733120⟩,
  ⟨F32.fin 6288597129223943218434944480382585657786105856, F32.fin 10704357695294699107937144770871213522870599680⟩,
  ⟨F32.fin 8330423360307939323339015914320878452588150784, F32.fin 14272476927059598810582859694494951363827466240⟩,
  ⟨F32.fin 10394280152391130826244633147093518784936280064, F32.fin 17840596158824498513228574618118689204784332800⟩,
  ⟨F32.fin 12485851582130565083245488388143046911034654720, F32.fin 21408715390589398215874289541742427045741199360⟩,
  ⟨F32.fin 14611038826333385009174963479911544555206344704, F32.fin 24976834622354297918520004465366164886698065920⟩,
  ⟨F32.fin 16776020051653407162775699451771542901098545152, F32.fin 28544953854119197621165719388989902727654932480⟩,
  ⟨F32.fin 18987291929039886101192139051728129267404374016, F32.fin 32113073085884097323811434312613640568611799040⟩,
  ⟨F32.fin 21251717273268883311355411618863987555412475904, F32.fin 35681192317648997026457149236237378409568665600⟩,
  ⟨F32.fin 23576580849251442243891341076775017058993700864, F32.fin 39249311549413896729102864159861116250525532160⟩,
  ⟨F32.fin 25969645178341763347028453927005951274587783168, F32.fin 42817430781178796431748579083484854091482398720⟩,
  ⟨F32.fin 28439207705774846784259841095984406438262865920, F32.fin 46385550012943696134394294007108591932439265280⟩,
  ⟨F32.fin 30994132106644249160681796565484765248390955008, F32.fin 49953669244708595837040008930732329773396131840⟩,
  ⟨F32.fin 33643924509152273813209633168540241581727285248, F32.fin 53521788476473495539685723854356067614352998400⟩,
  ⟨F32.fin 36398752550422518383131636538420896672430161920, F32.fin 57089907708238395242331438777979805455309864960⟩,
  ⟨F32.fin 39269483488124969961216973006589671470100643840, F32.fin 60658026940003294944977153701603543296266731520⟩,
  ⟨F32.fin 42267703256288552660269643551680402818802384896, F32.fin 64226146171768194647622868625227281137223598080⟩,
  ⟨F32.fin 45405656575604549529958914245566915465856417792, F32.fin 67794265403533094350268583548851018978180464640⟩,
  ⟨F32.fin 48696252397944473291834731667356740970132537344, F32.fin 71362384635297994052914298472474756819137331200⟩,
  ⟨F32.fin 52152911459859685758896091311566988269890568192, F32.fin 74930503867062893755560013396098494660094197760⟩,
  ⟨F32.fin 55789381168973792845066913512337900800873332736, F32.fin 78498623098827793458205728319722232501051064320⟩,
  ⟨F32.fin 59619479711642720019471518985728067806611636224, F32.fin 82066742330592693160851443243345970342007930880⟩,
  ⟨F32.fin 63656638713453570565139734054242036041948069888, F32.fin 85634861562357592863497158166969708182964797440⟩,
  ⟨F32.fin 67913440455205613102696580457364202568269430784, F32.fin 89202980794122492566142873090593446023921664000⟩,
  ⟨F32.fin 72400850195890507953188701978444448684421677056, F32.fin 92771100025887392268788588014217183864878530560⟩,
  ⟨F32.fin 77127328716279377330571651963721957875214450688, F32.fin 96339219257652291971434302937840921705835397120⟩,
  ⟨F32.fin 82097786971491624218750133835531185419475484672, F32.fin 99907338489417191674080017861464659546792263680⟩,
  ⟨F32.fin 87312426408688465813294517911639730923985960960, F32.fin 103475457721182091376725732785088397387749130240⟩,
  ⟨F32.fin 92765481283444793732879880772699270508170969088, F32.fin 107043576952946991079371447708712135228705996800⟩,
  ⟨F32.fin 98444091644549931871095014565545742787783163904, F32.fin 110611696184711890782017162632335873069662863360⟩,
  ⟨F32.fin 104327470322773413939083868662160355906321121280, F32.fin 114179815416476790484662877555959610910619729920⟩,
  ⟨F32.fin 110386500036542549074404809024134388321466974208, F32.fin 117747934648241690187308592479583348751576596480⟩,
  ⟨F32.fin 116584049173978924471924712214304885485986643968, F32.fin 121316053880006589889954307403207086592533463040⟩,
  ⟨F32.fin 122876071585508293856932879023485879322589265920, F32.fin 124884173111771489592600022326830824433490329600⟩]

/-- Indexing `tbl[i]` in a table of floats. -/
def entry32 (tbl : List FovPair32) (i : Nat) : FovPair32 := tbl.getD i ⟨F32.fin 0, F32.fin 0⟩

/-- The lambda `getX` in single precision. -/
def getX32 (inverse : Bool) (p : FovPair32) : F32 :=
  if inverse then p.displayFov else p.internalFov

/-- The lambda `getY` in single precision. -/
def getY32 (inverse : Bool) (p : FovPair32) : F32 :=
  if inverse then p.internalFov else p.displayFov

/-- The segment loop of `ConvertFormat` in single precision over the table `tbl`,
entered at index `i` with `count` iterations left; every operation rounds to
`float`. -/
def segmentLoop32 (tbl : List FovPair32) (x : F32) (inverse : Bool) : Nat → Nat → F32
  | _, 0 => getY32 inverse (entry32 tbl (tbl.length - 1))
  | i, count + 1 =>
    let lo := entry32 tbl (i - 1)
    let hi := entry32 tbl i
    let xLo := getX32 inverse lo
    let xHi := getX32 inverse hi
    if F32.le x xHi then
      let t := F32.div (F32.sub x xLo) (F32.sub xHi xLo)
      let yLo := getY32 inverse lo
      let yHi := getY32 inverse hi
      F32.add yLo (F32.mul t (F32.sub yHi yLo))
    else
      segmentLoop32 tbl x inverse (i + 1) count

/-- The body of `ConvertFormat(float x, bool inverse)` in single precision, reading
the table `tbl`. -/
def convertOver (tbl : List FovPair32) (x : F32) (inverse : Bool) : F32 :=
  if tbl.length = 0 then x
  else
    let xMin := getX32 inverse (entry32 tbl 0)
    let xMax := getX32 inverse (entry32 tbl (tbl.length - 1))
    if F32.le x xMin then getY32 inverse (entry32 tbl 0)
    else if F32.le xMax x then getY32 inverse (entry32 tbl (tbl.length - 1))
    else segmentLoop32 tbl x inverse 1 (tbl.length - 1)

/-- The function `ConvertFormat(float x, bool inverse)` in single precision: the body
over the table of the source. -/
def ConvertFormat32 (x : F32) (inverse : Bool) : F32 :=
  convertOver fovTable32 x inverse

/-- The number a float stands for; the infinities and NaN, which stand for none, are
given 0. -/
def F32.toRat : F32 → ℚ
  | F32.fin m => (m : ℚ) / 2 ^ 149
  | _ => 0

/-- The count of units of `2^-149` of a finite float; 0 for the infinities and NaN. -/
def F32.units : F32 → Int
  | F32.fin m => m
  | _ => 0

/-- The source-axis value of entry `j` of the compiled table, in units of `2^-149`. -/
def axisUnits (inverse : Bool) (j : Nat) : Int :=
  (getX32 inverse (entry32 fovValues32 j)).units

/-- The source-axis value of entry `j` of the compiled table as a number. -/
def axisValue (inverse : Bool) (j : Nat) : ℚ :=
  F32.toRat (F32.fin (axisUnits inverse j))

/-- The exact interpolation on the segment from entry `i` to entry `i + 1` of the
compiled table: what the loop body would return without rounding. -/
def exactLerp (inverse : Bool) (i : Nat) (x : ℚ) : ℚ :=
  axisValue (!inverse) i +
    (x - axisValue inverse i) / (axisValue inverse (i + 1) - axisValue inverse i) *
      (axisValue (!inverse) (i + 1) - axisValue (!inverse) i)

/-! ## The calibration table -/

theorem tableSize_eq : tableSize = 36 := rfl

theorem getY_eq_getX (inverse : Bool) (p : FovPair) : getY inverse p = getX (!inverse) p := by
  cases inverse <;> rfl

theorem fovTable_chain :
    List.Chain' (fun a b : FovPair => a.internalFov < b.internalFov ∧ a.displayFov < b.displayFov)
      fovTable := by
  simp only [fovTable, List.chain'_cons, List.chain'_singleton, and_true]
  norm_num

theorem entry_step (i : Nat) (h : i + 1 < 36) :
    (entry i).internalFov < (entry (i + 1)).internalFov ∧
      (entry i).displayFov < (entry (i + 1)).displayFov := by
  have hlen : fovTable.length = 36 := rfl
  have h1 : i < fovTable.length - 1 := by omega
  have := List.chain'_iff_get.mp fovTable_chain i h1
  simpa [entry, List.getD_eq_getElem, hlen, h, Nat.lt_of_succ_lt h] using this

theorem getX_step (inverse : Bool) (i : Nat) (h : i + 1 < 36) :
    getX inverse (entry i) < getX inverse (entry (i + 1)) := by
  cases inverse
  · exact (entry_step i h).1
  · exact (entry_step i h).2

theorem getX_lt (inverse : Bool) {i j : Nat} (hij : i < j) (hj : j < 36) :
    getX inverse (entry i) < getX inverse (entry j) := by
  induction j with
  | zero => omega
  | succ k ih =>
    rcases Nat.lt_succ_iff_lt_or_eq.mp hij with h | h
    · exact lt_trans (ih h (by omega)) (getX_step inverse k hj)
    · subst h; exact getX_step inverse i hj

theorem getX_le (inverse : Bool) {i j : Nat} (hij : i ≤ j) (hj : j < 36) :
    getX inverse (entry i) ≤ getX inverse (entry j) := by
  rcases Nat.lt_or_eq_of_le hij with h | h
  · exact le_of_lt (getX_lt inverse h hj)
  · subst h; exact le_refl _

theorem getY_lt (inverse : Bool) {i j : Nat} (hij : i < j) (hj : j < 36) :
    getY inverse (entry i) < getY inverse (entry j) := by
  rw [getY_eq_getX, getY_eq_getX]; exact getX_lt _ hij hj

theorem getY_le (inverse : Bool) {i j : Nat} (hij : i ≤ j) (hj : j < 36) :
    getY inverse (entry i) ≤ getY inverse (entry j) := by
  rw [getY_eq_getX, getY_eq_getX]; exact getX_le _ hij hj

/-- Indices are ordered as their source-axis values are. -/
theorem index_lt_of_getX_lt (inverse : Bool) {i j : Nat} (hi : i < 36)
    (h : getX inverse (entry i) < getX inverse (entry j)) : i < j := by
  by_contra hc
  exact absurd h (not_lt.mpr (getX_le inverse (Nat.le_of_not_lt hc) hi))

/-! ## The segment loop -/

theorem segmentLoop_spec (x : ℚ) (inverse : Bool) (hx : x < getX inverse (entry 35)) :
    ∀ d i, d + i = 36 → 1 ≤ i → i < 36 →
      (∀ k, 1 ≤ k → k < i → getX inverse (entry k) < x) →
      ∃ j, i ≤ j ∧ j < 36 ∧ x ≤ getX inverse (entry j) ∧
        (∀ k, 1 ≤ k → k < j → getX inverse (entry k) < x) ∧
        segmentLoop x inverse i = lerpAt x inverse j := by
  intro d
  induction d with
  | zero => intro i h1 _ h3; omega
  | succ d ih =>
    intro i hd h1 h36 hprev
    by_cases hle : x ≤ getX inverse (entry i)
    · refine ⟨i, le_refl _, h36, hle, hprev, ?_⟩
      rw [segmentLoop]
      simp only [tableSize_eq, h36, hle, if_true, lerpAt]
    · have hgt : getX inverse (entry i) < x := lt_of_not_le hle
      have hi : i + 1 < 36 := by
        by_contra hc
        have : i = 35 := by omega
        subst this
        exact absurd hx (not_lt.mpr (le_of_lt hgt))
      have hprev2 : ∀ k, 1 ≤ k → k < i + 1 → getX inverse (entry k) < x := by
        intro k hk1 hk2
        rcases Nat.lt_succ_iff_lt_or_eq.mp hk2 with h | h
        · exact hprev k hk1 h
        · subst h; exact hgt
      obtain ⟨j, hj1, hj2, hj3, hj4, hj5⟩ := ih (i + 1) (by omega) (by omega) hi hprev2
      refine ⟨j, by omega, hj2, hj3, hj4, ?_⟩
      rw [segmentLoop]
      simp only [tableSize_eq, h36, hle, if_true, if_false]
      exact hj5

/-- Strictly inside the table range `ConvertFormat` interpolates on the first
segment whose upper end is not below `x`. -/
theorem ConvertFormat_interior (x : ℚ) (inverse : Bool)
    (hlo : getX inverse (entry 0) < x) (hhi : x < getX inverse (entry 35)) :
    ∃ j, 1 ≤ j ∧ j < 36 ∧ getX inverse (entry (j - 1)) < x ∧ x ≤ getX inverse (entry j) ∧
      ConvertFormat x inverse = lerpAt x inverse j := by
  obtain ⟨j, hj1, hj2, hj3, hj4, hj5⟩ :=
    segmentLoop_spec x inverse hhi 35 1 rfl (le_refl _) (by omega) (by intro k h1 h2; omega)
  refine ⟨j, hj1, hj2, ?_, hj3, ?_⟩
  · rcases Nat.eq_or_lt_of_le hj1 with h | h
    · subst h; exact hlo
    · exact hj4 (j - 1) (by omega) (by omega)
  · unfold ConvertFormat
    simp only [tableSize_eq, Nat.reduceSub, not_le.mpr hlo, not_le.mpr hhi, ge_iff_le, if_false]
    simpa using hj5

/-! ## Linear interpolation on one segment -/

theorem lerpAt_le (x : ℚ) (inverse : Bool) {j : Nat} (h1 : 1 ≤ j) (h2 : j < 36)
    (hx : x ≤ getX inverse (entry j)) : lerpAt x inverse j ≤ getY inverse (entry j) := by
  have hX := getX_lt inverse (Nat.sub_lt h1 Nat.one_pos) h2
  have hY := getY_lt inverse (Nat.sub_lt h1 Nat.one_pos) h2
  have hd : 0 < getX inverse (entry j) - getX inverse (entry (j - 1)) := sub_pos.mpr hX
  have ht : (x - getX inverse (entry (j - 1))) /
      (getX inverse (entry j) - getX inverse (entry (j - 1))) ≤ 1 :=
    (div_le_one hd).mpr (by linarith)
  have hm := mul_le_mul_of_nonneg_right ht (le_of_lt (sub_pos.mpr hY))
  unfold lerpAt
  linarith

theorem lerpAt_ge (x : ℚ) (inverse : Bool) {j : Nat} (h1 : 1 ≤ j) (h2 : j < 36)
    (hx : getX inverse (entry (j - 1)) ≤ x) : getY inverse (entry (j - 1)) ≤ lerpAt x inverse j := by
  have hX := getX_lt inverse (Nat.sub_lt h1 Nat.one_pos) h2
  have hY := getY_lt inverse (Nat.sub_lt h1 Nat.one_pos) h2
  have ht : 0 ≤ (x - getX inverse (entry (j - 1))) /
      (getX inverse (entry j) - getX inverse (entry (j - 1))) :=
    div_nonneg (sub_nonneg.mpr hx) (le_of_lt (sub_pos.mpr hX))
  have hm := mul_nonneg ht (le_of_lt (sub_pos.mpr hY))
  unfold lerpAt
  linarith

theorem lerpAt_mono {x x' : ℚ} (inverse : Bool) {j : Nat} (h1 : 1 ≤ j) (h2 : j < 36)
    (hx : x ≤ x') : lerpAt x inverse j ≤ lerpAt x' inverse j := by
  have hX := getX_lt inverse (Nat.sub_lt h1 Nat.one_pos) h2
  have hY := getY_lt inverse (Nat.sub_lt h1 Nat.one_pos) h2
  have ht : (x - getX inverse (entry (j - 1))) /
      (getX inverse (entry j) - getX inverse (entry (j - 1))) ≤
      (x' - getX inverse (entry (j - 1))) /
      (getX inverse (entry j) - getX inverse (entry (j - 1))) :=
    div_le_div_of_nonneg_right (by linarith) (le_of_lt (sub_pos.mpr hX))
  have hm := mul_le_mul_of_nonneg_right ht (le_of_lt (sub_pos.mpr hY))
  unfold lerpAt
  linarith

theorem lerpAt_upper_end (inverse : Bool) {j : Nat} (h1 : 1 ≤ j) (h2 : j < 36) :
    lerpAt (getX inverse (entry j)) inverse j = getY inverse (entry j) := by
  have hX := getX_lt inverse (Nat.sub_lt h1 Nat.one_pos) h2
  have hd : getX inverse (entry j) - getX inverse (entry (j - 1)) ≠ 0 := ne_of_gt (sub_pos.mpr hX)
  unfold lerpAt
  rw [div_self hd]
  ring

/-! ## Clamping and the range of `ConvertFormat` -/

theorem ConvertFormat_low (x : ℚ) (inverse : Bool) (h : x ≤ getX inverse (entry 0)) :
    ConvertFormat x inverse = getY inverse (entry 0) := by
  unfold ConvertFormat
  simp only [tableSize_eq, h, if_true]
  rfl

theorem ConvertFormat_high (x : ℚ) (inverse : Bool) (h : getX inverse (entry 35) ≤ x) :
    ConvertFormat x inverse = getY inverse (entry 35) := by
  have h0 : ¬ x ≤ getX inverse (entry 0) :=
    not_le.mpr (lt_of_lt_of_le (getX_lt inverse (by omega : 0 < 35) (by omega)) h)
  unfold ConvertFormat
  simp only [tableSize_eq, Nat.reduceSub, h0, ge_iff_le, h, if_true, if_false]
  rfl

theorem ConvertFormat_range (x : ℚ) (inverse : Bool) :
    getY inverse (entry 0) ≤ ConvertFormat x inverse ∧
      ConvertFormat x inverse ≤ getY inverse (entry 35) := by
  have hY035 : getY inverse (entry 0) ≤ getY inverse (entry 35) :=
    getY_le inverse (by omega) (by omega)
  by_cases hlo : x ≤ getX inverse (entry 0)
  · rw [ConvertFormat_low x inverse hlo]; exact ⟨le_refl _, hY035⟩
  · by_cases hhi : getX inverse (entry 35) ≤ x
    · rw [ConvertFormat_high x inverse hhi]; exact ⟨hY035, le_refl _⟩
    · obtain ⟨j, h1, h2, h3, h4, h5⟩ :=
        ConvertFormat_interior x inverse (lt_of_not_le hlo) (lt_of_not_le hhi)
      rw [h5]
      exact ⟨le_trans (getY_le inverse (Nat.zero_le _) (by omega))
          (lerpAt_ge x inverse h1 h2 (le_of_lt h3)),
        le_trans (lerpAt_le x inverse h1 h2 h4) (getY_le inverse (by omega) (by omega))⟩

/-- At the source-axis value of the entry at index `i`, `ConvertFormat` returns that
entry's target-axis value. -/
theorem ConvertFormat_entry (inverse : Bool) (i : Nat) (hi : i < 36) :
    ConvertFormat (getX inverse (entry i)) inverse = getY inverse (entry i) := by
  by_cases h0 : i = 0
  · subst h0; exact ConvertFormat_low _ inverse (le_refl _)
  · by_cases h35 : i = 35
    · subst h35; exact ConvertFormat_high _ inverse (le_refl _)
    · obtain ⟨j, h1, h2, h3, h4, h5⟩ := ConvertFormat_interior (getX inverse (entry i)) inverse
        (getX_lt inverse (Nat.pos_of_ne_zero h0) hi) (getX_lt inverse (by omega) (by omega))
      have ha : j - 1 < i := index_lt_of_getX_lt inverse (by omega) h3
      have hb : i ≤ j := by
        by_contra hc
        exact absurd h4 (not_le.mpr (getX_lt inverse (Nat.lt_of_not_le hc) hi))
      have hj : j = i := by omega
      subst hj
      rw [h5]
      exact lerpAt_upper_end inverse h1 h2

theorem mem_fovTable_iff (e : FovPair) : e ∈ fovTable ↔ ∃ i, i < 36 ∧ entry i = e := by
  have hlen : fovTable.length = 36 := rfl
  constructor
  · intro h
    obtain ⟨i, hi, he⟩ := List.mem_iff_getElem.mp h
    exact ⟨i, hlen ▸ hi, by simp [entry, List.getD_eq_getElem, hi, he]⟩
  · rintro ⟨i, hi, rfl⟩
    have hi2 : i < fovTable.length := hlen ▸ hi
    simp [entry, List.getD_eq_getElem, hi2]

/-! ## Claims about the unit converter -/

/-- C1. `ConvertFormat` clamps at both table ends in both directions: an input at or
below the first entry's source-axis value yields the first entry's target-axis value,
an input at or above the last entry's source-axis value yields the last entry's
target-axis value, and `ConvertFormat(-100.0, false)` is `0.0`. -/
theorem ConvertFormat_clamps :
    (∀ (x : ℚ) (inverse : Bool), x ≤ getX inverse (entry 0) →
        ConvertFormat x inverse = getY inverse (entry 0)) ∧
    (∀ (x : ℚ) (inverse : Bool), getX inverse (entry (tableSize - 1)) ≤ x →
        ConvertFormat x inverse = getY inverse (entry (tableSize - 1))) ∧
    ConvertFormat (-100.0) false = 0.0 := by
  refine ⟨ConvertFormat_low, ConvertFormat_high, ?_⟩
  rw [ConvertFormat_low (-100.0) false (by norm_num [getX, entry, fovTable])]
  rfl

/-- Instance of C1 at the upper end of the inverse direction. -/
theorem ConvertFormat_clamps_witness :
    getX true (entry (tableSize - 1)) ≤ 200 ∧ ConvertFormat 200 true = 172.18605040 :=
  ⟨by norm_num [getX, entry, fovTable, tableSize],
    ConvertFormat_clamps.2.1 200 true (by norm_num [getX, entry, fovTable, tableSize])⟩

/-- C2. `ConvertFormat` is monotonically non-decreasing in `x` for each fixed
direction (exact arithmetic). -/
theorem ConvertFormat_monotone (x x' : ℚ) (inverse : Bool) (h : x ≤ x') :
    ConvertFormat x inverse ≤ ConvertFormat x' inverse := by
  by_cases hlo : x ≤ getX inverse (entry 0)
  · rw [ConvertFormat_low x inverse hlo]; exact (ConvertFormat_range x' inverse).1
  · by_cases hhi : getX inverse (entry 35) ≤ x'
    · rw [ConvertFormat_high x' inverse hhi]; exact (ConvertFormat_range x inverse).2
    · have hlo1 : getX inverse (entry 0) < x := lt_of_not_le hlo
      have hhi1 : x' < getX inverse (entry 35) := lt_of_not_le hhi
      obtain ⟨j, h1, h2, h3, h4, h5⟩ :=
        ConvertFormat_interior x inverse hlo1 (lt_of_le_of_lt h hhi1)
      obtain ⟨k, k1, k2, k3, k4, k5⟩ :=
        ConvertFormat_interior x' inverse (lt_of_lt_of_le hlo1 h) hhi1
      rw [h5, k5]
      have hjk : j - 1 < k :=
        index_lt_of_getX_lt inverse (by omega) (lt_of_lt_of_le h3 (le_trans h k4))
      rcases Nat.eq_or_lt_of_le (by omega : j ≤ k) with e | e
      · subst e; exact lerpAt_mono inverse h1 h2 h
      · exact le_trans (lerpAt_le x inverse h1 h2 h4)
          (le_trans (getY_le inverse (by omega : j ≤ k - 1) (by omega))
            (lerpAt_ge x' inverse k1 k2 (le_of_lt k3)))

/-- Instance of C2 at `x = 10`, `x' = 60` in the forward direction. -/
theorem ConvertFormat_monotone_witness :
    (10 : ℚ) ≤ 60 ∧ ConvertFormat 10 false ≤ ConvertFormat 60 false :=
  ⟨by norm_num, ConvertFormat_monotone 10 60 false (by norm_num)⟩

/-- C3. `ConvertFormat` maps every table entry to its paired value, in both
directions. -/
theorem ConvertFormat_table_entry (e : FovPair) (he : e ∈ fovTable) :
    ConvertFormat e.internalFov false = e.displayFov ∧
      ConvertFormat e.displayFov true = e.internalFov := by
  obtain ⟨i, hi, rfl⟩ := (mem_fovTable_iff e).mp he
  exact ⟨ConvertFormat_entry false i hi, ConvertFormat_entry true i hi⟩

/-- Instance of C3 at the entry `{59.22966766, 90.0}`. -/
theorem ConvertFormat_table_entry_witness :
    (⟨59.22966766, 90.0⟩ : FovPair) ∈ fovTable ∧
      ConvertFormat 59.22966766 false = 90.0 ∧ ConvertFormat 90.0 true = 59.22966766 :=
  ⟨by simp [fovTable], ConvertFormat_table_entry ⟨59.22966766, 90.0⟩ (by simp [fovTable])⟩

/-- C4. Round trip at table entries: for every `v` that is the `internalFov` of a
table entry, converting to display and back gives `v` again (exact arithmetic). -/
theorem ConvertFormat_round_trip (v : ℚ) (hv : ∃ e ∈ fovTable, e.internalFov = v) :
    ConvertFormat (ConvertFormat v false) true = v := by
  obtain ⟨e, he, rfl⟩ := hv
  obtain ⟨i, hi, rfl⟩ := (mem_fovTable_iff e).mp he
  have h1 := ConvertFormat_entry false i hi
  have h2 := ConvertFormat_entry true i hi
  simp only [getX, getY] at h1 h2
  simp only [Bool.false_eq_true, if_false, if_true] at h1 h2
  rw [h1, h2]

/-- Instance of C4 at `v = 59.22966766`. -/
theorem ConvertFormat_round_trip_witness :
    (∃ e ∈ fovTable, e.internalFov = 59.22966766) ∧
      ConvertFormat (ConvertFormat 59.22966766 false) true = 59.22966766 :=
  ⟨⟨⟨59.22966766, 90.0⟩, by simp [fovTable], rfl⟩,
    ConvertFormat_round_trip 59.22966766 ⟨⟨59.22966766, 90.0⟩, by simp [fovTable], rfl⟩⟩

/-! ## Target resolution -/

theorem EnsureTarget_resolved {s : State} {t : Nat} (h : s.g_patch = some t) :
    EnsureTarget s = (true, s) := by
  unfold EnsureTarget
  rw [h]

theorem EnsureTarget_mem (s : State) : (EnsureTarget s).2.mem = s.mem := by
  unfold EnsureTarget
  repeat' split
  all_goals rfl

theorem EnsureTarget_gate (s : State) :
    (EnsureTarget s).2.g_patchEnabled = s.g_patchEnabled := by
  unfold EnsureTarget
  repeat' split
  all_goals rfl

theorem EnsureTarget_text (s : State) : (EnsureTarget s).2.text = s.text := by
  unfold EnsureTarget
  repeat' split
  all_goals rfl

theorem EnsureTarget_true {s : State} (h : (EnsureTarget s).1 = true) :
    ∃ t, (EnsureTarget s).2.g_patch = some t := by
  unfold EnsureTarget at h ⊢
  repeat' split
  all_goals first
    | exact ⟨_, rfl⟩
    | (rename_i t hs; exact ⟨t, hs⟩)
    | (simp_all)

theorem EnsureTarget_false {s : State} (h : (EnsureTarget s).1 = false) :
    EnsureTarget s = (false, s) := by
  unfold EnsureTarget at h ⊢
  repeat' split
  all_goals simp_all

theorem EnsureTarget_kept {s : State} {t : Nat} (h : s.g_patch = some t) :
    (EnsureTarget s).2.g_patch = some t := by
  rw [EnsureTarget_resolved h]; exact h

theorem EnsureTarget_idem (s : State) (h : (EnsureTarget s).1 = true) :
    EnsureTarget (EnsureTarget s).2 = (true, (EnsureTarget s).2) := by
  obtain ⟨t, ht⟩ := EnsureTarget_true h
  exact EnsureTarget_resolved ht

/-! ## Operations on a state whose target is resolved -/

theorem IsLocked_resolved {s : State} {t : Nat} (h : s.g_patch = some t) :
    IsLocked s = (memcmpEq s.mem t kOn 3, s) := by
  unfold IsLocked
  simp [EnsureTarget_resolved h, h, kOn]

theorem Write3_resolved {s : State} {t : Nat} (h : s.g_patch = some t) (bytes : List Nat)
    (protectOk : Bool) :
    Write3 bytes protectOk s =
      if s.g_patchEnabled = true ∧ protectOk = true then
        (true, { s with mem := memcpy s.mem t bytes 3 })
      else (false, s) := by
  unfold Write3
  cases hg : s.g_patchEnabled <;> cases protectOk <;> simp [EnsureTarget_resolved h, h, hg]

theorem SetLocked_resolved {s : State} {t : Nat} (h : s.g_patch = some t) (enable protectOk : Bool) :
    SetLocked enable protectOk s =
      if enable = memcmpEq s.mem t kOn 3 then (true, s)
      else ApplyPatch enable protectOk s := by
  unfold SetLocked
  simp [EnsureTarget_resolved h, IsLocked_resolved h]

theorem Toggle_resolved {s : State} {t : Nat} (h : s.g_patch = some t) (protectOk : Bool) :
    Toggle protectOk s = ApplyPatch (!memcmpEq s.mem t kOn 3) protectOk s := by
  unfold Toggle
  simp [EnsureTarget_resolved h, IsLocked_resolved h]

/-! ## Operations on a state whose target cannot be resolved -/

theorem IsLocked_unresolvable {s : State} (h : (EnsureTarget s).1 = false) :
    IsLocked s = (false, s) := by
  unfold IsLocked
  simp [EnsureTarget_false h]

theorem SetLocked_unresolvable {s : State} (h : (EnsureTarget s).1 = false)
    (enable protectOk : Bool) : SetLocked enable protectOk s = (false, s) := by
  unfold SetLocked
  simp [EnsureTarget_false h]

theorem Toggle_unresolvable {s : State} (h : (EnsureTarget s).1 = false) (protectOk : Bool) :
    Toggle protectOk s = (false, s) := by
  unfold Toggle
  simp [EnsureTarget_false h]

/-! ## Every operation starts by resolving the target -/

theorem IsLocked_after_resolve (s : State) : IsLocked s = IsLocked (EnsureTarget s).2 := by
  cases h : (EnsureTarget s).1
  · rw [EnsureTarget_false h]
  · obtain ⟨t, ht⟩ := EnsureTarget_true h
    have hs : EnsureTarget s = (true, (EnsureTarget s).2) := Prod.ext h rfl
    conv_lhs => unfold IsLocked; rw [hs]
    conv_rhs => unfold IsLocked; rw [EnsureTarget_resolved ht]

theorem SetLocked_after_resolve (s : State) (enable protectOk : Bool) :
    SetLocked enable protectOk s = SetLocked enable protectOk (EnsureTarget s).2 := by
  cases h : (EnsureTarget s).1
  · rw [EnsureTarget_false h]
  · obtain ⟨t, ht⟩ := EnsureTarget_true h
    have hs : EnsureTarget s = (true, (EnsureTarget s).2) := Prod.ext h rfl
    conv_lhs => unfold SetLocked; rw [hs]
    conv_rhs => unfold SetLocked; rw [EnsureTarget_resolved ht]

theorem Toggle_after_resolve (s : State) (protectOk : Bool) :
    Toggle protectOk s = Toggle protectOk (EnsureTarget s).2 := by
  cases h : (EnsureTarget s).1
  · rw [EnsureTarget_false h]
  · obtain ⟨t, ht⟩ := EnsureTarget_true h
    have hs : EnsureTarget s = (true, (EnsureTarget s).2) := Prod.ext h rfl
    conv_lhs => unfold Toggle; rw [hs]
    conv_rhs => unfold Toggle; rw [EnsureTarget_resolved ht]

/-! ## Reading back what was written -/

theorem memcpy_at (mem : Nat → Nat) (t : Nat) (bytes : List Nat) (i : Nat) (hi : i < 3) :
    memcpy mem t bytes 3 (t + i) = bytes.getD i 0 := by
  unfold memcpy
  simp [hi]

theorem memcmpEq_three (mem : Nat → Nat) (t : Nat) (bytes : List Nat) :
    memcmpEq mem t bytes 3 =
      (mem t == bytes.getD 0 0 && mem (t + 1) == bytes.getD 1 0 && mem (t + 2) == bytes.getD 2 0) := by
  simp [memcmpEq, List.range_succ, Bool.and_assoc]

theorem memcmpEq_kOn_memcpy_kOn (mem : Nat → Nat) (t : Nat) :
    memcmpEq (memcpy mem t kOn 3) t kOn 3 = true := by
  have h0 := memcpy_at mem t kOn 0 (by omega)
  have h1 := memcpy_at mem t kOn 1 (by omega)
  have h2 := memcpy_at mem t kOn 2 (by omega)
  rw [memcmpEq_three]
  simp only [Nat.add_zero] at h0
  simp [h0, h1, h2]

theorem memcmpEq_kOn_memcpy_kOff (mem : Nat → Nat) (t : Nat) :
    memcmpEq (memcpy mem t kOff 3) t kOn 3 = false := by
  have h0 := memcpy_at mem t kOff 0 (by omega)
  rw [memcmpEq_three]
  simp only [Nat.add_zero] at h0
  rw [h0]
  simp [kOn, kOff]

theorem memcmpEq_kOn_memcpy_payload (mem : Nat → Nat) (t : Nat) (enable : Bool) :
    memcmpEq (memcpy mem t (if enable then kOn else kOff) 3) t kOn 3 = enable := by
  cases enable
  · exact memcmpEq_kOn_memcpy_kOff mem t
  · exact memcmpEq_kOn_memcpy_kOn mem t

/-! ## The gate -/

theorem Write3_closed {s : State} (h : s.g_patchEnabled = false) (bytes : List Nat)
    (protectOk : Bool) : Write3 bytes protectOk s = (false, s) := by
  unfold Write3
  simp [h]

theorem SetLocked_closed {s : State} (h : s.g_patchEnabled = false) (enable protectOk : Bool) :
    SetLocked enable protectOk s =
      ((EnsureTarget s).1 && (enable == (IsLocked s).1), (EnsureTarget s).2) := by
  cases hr : (EnsureTarget s).1
  · rw [SetLocked_unresolvable hr, EnsureTarget_false hr]; rfl
  · obtain ⟨t, ht⟩ := EnsureTarget_true hr
    have hg : (EnsureTarget s).2.g_patchEnabled = false := by rw [EnsureTarget_gate]; exact h
    rw [SetLocked_after_resolve, IsLocked_after_resolve s, SetLocked_resolved ht,
      IsLocked_resolved ht]
    by_cases hb : enable = memcmpEq (EnsureTarget s).2.mem t kOn 3
    · simp [hb]
    · simp [hb, ApplyPatch, Write3_closed hg]

theorem Toggle_closed {s : State} (h : s.g_patchEnabled = false) (protectOk : Bool) :
    Toggle protectOk s = (false, (EnsureTarget s).2) := by
  cases hr : (EnsureTarget s).1
  · rw [Toggle_unresolvable hr, EnsureTarget_false hr]
  · obtain ⟨t, ht⟩ := EnsureTarget_true hr
    have hg : (EnsureTarget s).2.g_patchEnabled = false := by rw [EnsureTarget_gate]; exact h
    rw [Toggle_after_resolve, Toggle_resolved ht]
    simp [ApplyPatch, Write3_closed hg]

/-! ## What a call leaves behind -/

/-- A successful `SetLocked(enable)` leaves the target resolved and the lock state
equal to `enable`. -/
theorem SetLocked_success {s : State} {enable protectOk : Bool}
    (h : (SetLocked enable protectOk s).1 = true) :
    ∃ t, (SetLocked enable protectOk s).2.g_patch = some t ∧
      memcmpEq (SetLocked enable protectOk s).2.mem t kOn 3 = enable := by
  cases hr : (EnsureTarget s).1
  · rw [SetLocked_unresolvable hr] at h; exact absurd h (by simp)
  · obtain ⟨t, ht⟩ := EnsureTarget_true hr
    rw [SetLocked_after_resolve, SetLocked_resolved ht] at h ⊢
    by_cases hb : enable = memcmpEq (EnsureTarget s).2.mem t kOn 3
    · rw [if_pos hb]; exact ⟨t, ht, hb.symm⟩
    · rw [if_neg hb] at h ⊢
      unfold ApplyPatch at h ⊢
      rw [Write3_resolved ht] at h ⊢
      by_cases hc : (EnsureTarget s).2.g_patchEnabled = true ∧ protectOk = true
      · rw [if_pos hc]
        exact ⟨t, ht, memcmpEq_kOn_memcpy_payload _ t enable⟩
      · rw [if_neg hc] at h; exact absurd h (by simp)

/-- One `Toggle()` flips what `IsLocked()` reports exactly when it returns true. -/
theorem IsLocked_after_Toggle (s : State) (protectOk : Bool) :
    (IsLocked (Toggle protectOk s).2).1 = xor (Toggle protectOk s).1 (IsLocked s).1 := by
  cases hr : (EnsureTarget s).1
  · rw [Toggle_unresolvable hr, IsLocked_unresolvable hr]; rfl
  · obtain ⟨t, ht⟩ := EnsureTarget_true hr
    rw [Toggle_after_resolve, IsLocked_after_resolve s, Toggle_resolved ht]
    unfold ApplyPatch
    rw [Write3_resolved ht]
    by_cases hc : (EnsureTarget s).2.g_patchEnabled = true ∧ protectOk = true
    · rw [if_pos hc]
      have ht2 : ({ (EnsureTarget s).2 with
          mem := memcpy (EnsureTarget s).2.mem t
            (if (!memcmpEq (EnsureTarget s).2.mem t kOn 3) = true then kOn else kOff) 3 } :
            State).g_patch = some t := ht
      rw [IsLocked_resolved ht2, IsLocked_resolved ht]
      simp only [memcmpEq_kOn_memcpy_payload]
      cases memcmpEq (EnsureTarget s).2.mem t kOn 3 <;> rfl
    · rw [if_neg hc]
      simp

/-! ## Claims about the lock state machine -/

/-- C5 as stated fails: with the gate open and the target resolvable, `Lock()` on
an unlocked process whose protection change is refused leaves `IsLocked()` false. -/
theorem Lock_then_IsLocked_refused :
    freshUnlocked.g_patchEnabled = true ∧ (EnsureTarget freshUnlocked).1 = true ∧
      (Lock false freshUnlocked).1 = false ∧
      (IsLocked (Lock false freshUnlocked).2).1 = false := by
  decide

/-- C5 amended. With the gate open, the target resolvable, and the protection change
granted (or the process already locked), `Lock()` returns true, a following
`IsLocked()` returns true, and the 3 bytes at the resolved target are
`0x90, 0x90, 0x90`. -/
theorem Lock_then_IsLocked (s : State) (protectOk : Bool)
    (hgate : s.g_patchEnabled = true) (hres : (EnsureTarget s).1 = true)
    (hok : protectOk = true ∨ (IsLocked s).1 = true) :
    (Lock protectOk s).1 = true ∧ (IsLocked (Lock protectOk s).2).1 = true ∧
      ∃ t, (Lock protectOk s).2.g_patch = some t ∧
        (Lock protectOk s).2.mem t = 0x90 ∧ (Lock protectOk s).2.mem (t + 1) = 0x90 ∧
        (Lock protectOk s).2.mem (t + 2) = 0x90 := by
  have hret : (Lock protectOk s).1 = true := by
    obtain ⟨t, ht⟩ := EnsureTarget_true hres
    have hg : (EnsureTarget s).2.g_patchEnabled = true := by rw [EnsureTarget_gate]; exact hgate
    unfold Lock
    rw [SetLocked_after_resolve, SetLocked_resolved ht]
    by_cases hb : true = memcmpEq (EnsureTarget s).2.mem t kOn 3
    · rw [if_pos hb]
    · rw [if_neg hb]
      have hp : protectOk = true := by
        rcases hok with h | h
        · exact h
        · rw [IsLocked_after_resolve, IsLocked_resolved ht] at h
          exact absurd h.symm hb
      unfold ApplyPatch
      rw [Write3_resolved ht, if_pos ⟨hg, hp⟩]
  have hpost : ∃ t, (Lock protectOk s).2.g_patch = some t ∧
      memcmpEq (Lock protectOk s).2.mem t kOn 3 = true := SetLocked_success hret
  obtain ⟨t, ht, hm⟩ := hpost
  refine ⟨hret, ?_, t, ht, ?_⟩
  · rw [IsLocked_resolved ht]; exact hm
  · rw [memcmpEq_three] at hm
    simpa [kOn, Bool.and_eq_true, and_assoc] using hm

/-- Instance of amended C5: locking the fresh unlocked sample process. -/
theorem Lock_then_IsLocked_witness :
    freshUnlocked.g_patchEnabled = true ∧ (EnsureTarget freshUnlocked).1 = true ∧
      (Lock true freshUnlocked).1 = true ∧ (IsLocked (Lock true freshUnlocked).2).1 = true ∧
      ∃ t, (Lock true freshUnlocked).2.g_patch = some t ∧
        (Lock true freshUnlocked).2.mem t = 0x90 ∧
        (Lock true freshUnlocked).2.mem (t + 1) = 0x90 ∧
        (Lock true freshUnlocked).2.mem (t + 2) = 0x90 :=
  ⟨by decide, by decide,
    Lock_then_IsLocked freshUnlocked true (by decide) (by decide) (Or.inl rfl)⟩

/-- C6 as stated fails: on a process whose target is resolvable but not yet resolved,
`SetLocked(false)` with the state already unlocked returns true and leaves the
code bytes and the gate alone, but it changes the target from unresolved to
resolved. -/
theorem SetLocked_noop_resolves_target :
    (EnsureTarget freshUnlocked).1 = true ∧ (IsLocked freshUnlocked).1 = false ∧
      (SetLocked false true freshUnlocked).1 = true ∧
      freshUnlocked.g_patch = none ∧
      (SetLocked false true freshUnlocked).2.g_patch = some 4120 := by
  decide

/-- C6 amended. When the target is resolvable and `IsLocked()` equals `desired`,
`SetLocked(desired)` returns true and performs no write: code bytes, code region and
gate are unchanged, a target that was already resolved is unchanged (the whole state
is), and a target that was unresolved is now the resolved one, exactly as
`EnsureTarget()` leaves it. Moreover a second consecutive `SetLocked(desired)`
after a successful one returns true and changes nothing. -/
theorem SetLocked_idempotent (s : State) (desired protectOk protectOk2 : Bool) :
    ((EnsureTarget s).1 = true → (IsLocked s).1 = desired →
      SetLocked desired protectOk s = (true, (EnsureTarget s).2) ∧
      (SetLocked desired protectOk s).2.mem = s.mem ∧
      (SetLocked desired protectOk s).2.text = s.text ∧
      (SetLocked desired protectOk s).2.g_patchEnabled = s.g_patchEnabled ∧
      (∀ t, s.g_patch = some t → (SetLocked desired protectOk s).2 = s)) ∧
    ((SetLocked desired protectOk s).1 = true →
      SetLocked desired protectOk2 (SetLocked desired protectOk s).2 =
        (true, (SetLocked desired protectOk s).2)) := by
  constructor
  · intro hres hl
    obtain ⟨t, ht⟩ := EnsureTarget_true hres
    have hb : desired = memcmpEq (EnsureTarget s).2.mem t kOn 3 := by
      rw [IsLocked_after_resolve, IsLocked_resolved ht] at hl
      exact hl.symm
    have hS : SetLocked desired protectOk s = (true, (EnsureTarget s).2) := by
      rw [SetLocked_after_resolve, SetLocked_resolved ht, if_pos hb]
    rw [hS]
    refine ⟨rfl, EnsureTarget_mem s, EnsureTarget_text s, EnsureTarget_gate s, ?_⟩
    intro t0 ht0
    rw [EnsureTarget_resolved ht0]
  · intro hret
    obtain ⟨t, ht, hm⟩ := SetLocked_success hret
    rw [SetLocked_resolved ht, if_pos hm.symm]

/-- Instance of amended C6: both premises hold on the sample processes. -/
theorem SetLocked_idempotent_witness :
    (EnsureTarget freshUnlocked).1 = true ∧ (IsLocked freshUnlocked).1 = false ∧
      (SetLocked false true freshUnlocked).2.mem = freshUnlocked.mem ∧
      (SetLocked true true freshUnlocked).1 = true ∧
      SetLocked true false (SetLocked true true freshUnlocked).2 =
        (true, (SetLocked true true freshUnlocked).2) :=
  ⟨by decide, by decide,
    ((SetLocked_idempotent freshUnlocked false true true).1 (by decide) (by decide)).2.1,
    by decide,
    (SetLocked_idempotent freshUnlocked true true false).2 (by decide)⟩

/-- C7 as stated fails: when the protection change is refused for the first
`Toggle()` and granted for the second, the process ends locked although it started
unlocked. -/
theorem Toggle_twice_not_restored :
    (IsLocked freshUnlocked).1 = false ∧
      (Toggle false freshUnlocked).1 = false ∧
      (Toggle true (Toggle false freshUnlocked).2).1 = true ∧
      (IsLocked (Toggle true (Toggle false freshUnlocked).2).2).1 = true := by
  decide

/-- C7 amended. After two consecutive `Toggle()` calls that report the same result
(both true or both false), `IsLocked()` returns the value it returned before the
first call. -/
theorem Toggle_twice (s : State) (protectOk protectOk2 : Bool)
    (h : (Toggle protectOk s).1 = (Toggle protectOk2 (Toggle protectOk s).2).1) :
    (IsLocked (Toggle protectOk2 (Toggle protectOk s).2).2).1 = (IsLocked s).1 := by
  rw [IsLocked_after_Toggle, IsLocked_after_Toggle, ← h]
  cases (Toggle protectOk s).1 <;> cases (IsLocked s).1 <;> rfl

/-- Instance of amended C7: two successful toggles of the fresh unlocked sample. -/
theorem Toggle_twice_witness :
    (Toggle true freshUnlocked).1 = true ∧
      (Toggle true (Toggle true freshUnlocked).2).1 = true ∧
      (IsLocked (Toggle true freshUnlocked).2).1 = true ∧
      (IsLocked (Toggle true (Toggle true freshUnlocked).2).2).1 = (IsLocked freshUnlocked).1 :=
  ⟨by decide, by decide, by decide, Toggle_twice freshUnlocked true true (by decide)⟩

/-- C8 as stated fails: after `PreventPatching()`, `Lock()` on a process that is
already locked returns true. -/
theorem Lock_closed_gate_returns_true :
    (PreventPatching resolvedLocked).2.g_patchEnabled = false ∧
      (Lock true (PreventPatching resolvedLocked).2).1 = true ∧
      (Lock false (PreventPatching resolvedLocked).2).1 = true := by
  decide

/-- C8 amended. With the gate closed `Toggle()` returns false, and `Lock()` and
`Unlock()` return false unless the target is resolvable and `IsLocked()` already
equals the requested state, in which case they return true. -/
theorem closed_gate_results (s : State) (protectOk : Bool) (h : s.g_patchEnabled = false) :
    (Toggle protectOk s).1 = false ∧
      ((Lock protectOk s).1 = true ↔ (EnsureTarget s).1 = true ∧ (IsLocked s).1 = true) ∧
      ((Unlock protectOk s).1 = true ↔ (EnsureTarget s).1 = true ∧ (IsLocked s).1 = false) := by
  refine ⟨by rw [Toggle_closed h], ?_, ?_⟩
  · unfold Lock
    rw [SetLocked_closed h]
    cases (EnsureTarget s).1 <;> cases (IsLocked s).1 <;> simp
  · unfold Unlock
    rw [SetLocked_closed h]
    cases (EnsureTarget s).1 <;> cases (IsLocked s).1 <;> simp

/-- Instance of amended C8: the fresh unlocked sample after `PreventPatching()`. -/
theorem closed_gate_results_witness :
    (PreventPatching freshUnlocked).2.g_patchEnabled = false ∧
      (Toggle true (PreventPatching freshUnlocked).2).1 = false ∧
      (Lock true (PreventPatching freshUnlocked).2).1 = false ∧
      (Unlock true (PreventPatching freshUnlocked).2).1 = true := by
  have h := closed_gate_results (PreventPatching freshUnlocked).2 true rfl
  exact ⟨rfl, h.1, by decide, h.2.2.mpr (by decide)⟩

/-- C9. With the gate closed, none of `Lock()`, `Unlock()`, `Toggle()` alters any
byte of memory. -/
theorem closed_gate_memory (s : State) (protectOk : Bool) (h : s.g_patchEnabled = false) :
    (Lock protectOk s).2.mem = s.mem ∧ (Unlock protectOk s).2.mem = s.mem ∧
      (Toggle protectOk s).2.mem = s.mem := by
  refine ⟨?_, ?_, ?_⟩
  · unfold Lock; rw [SetLocked_closed h]; exact EnsureTarget_mem s
  · unfold Unlock; rw [SetLocked_closed h]; exact EnsureTarget_mem s
  · rw [Toggle_closed h]; exact EnsureTarget_mem s

/-- Instance of C9: the fresh unlocked sample after `PreventPatching()`. -/
theorem closed_gate_memory_witness :
    (PreventPatching freshUnlocked).2.g_patchEnabled = false ∧
      (Lock true (PreventPatching freshUnlocked).2).2.mem = freshUnlocked.mem ∧
      (Unlock true (PreventPatching freshUnlocked).2).2.mem = freshUnlocked.mem ∧
      (Toggle true (PreventPatching freshUnlocked).2).2.mem = freshUnlocked.mem :=
  ⟨rfl, closed_gate_memory (PreventPatching freshUnlocked).2 true rfl⟩

/-- C10. `PreventPatching()` and `ReleasePatching()` always return true, leave the
gate closed and open respectively, change neither the resolved target nor any code
byte, and `PreventPatching()` followed by `ReleasePatching()` yields the state
`ReleasePatching()` alone yields. -/
theorem gate_flips (s : State) :
    (PreventPatching s).1 = true ∧ (ReleasePatching s).1 = true ∧
      (PreventPatching s).2.g_patchEnabled = false ∧
      (ReleasePatching s).2.g_patchEnabled = true ∧
      (PreventPatching s).2.g_patch = s.g_patch ∧ (ReleasePatching s).2.g_patch = s.g_patch ∧
      (PreventPatching s).2.mem = s.mem ∧ (ReleasePatching s).2.mem = s.mem ∧
      (PreventPatching s).2.text = s.text ∧ (ReleasePatching s).2.text = s.text ∧
      ReleasePatching (PreventPatching s).2 = ReleasePatching s :=
  ⟨rfl, rfl, rfl, rfl, rfl, rfl, rfl, rfl, rfl, rfl, rfl⟩

/-! ## The segment the loop picks -/

/-- C17. The calibration table has exactly 36 entries and is strictly increasing on
both axes from each entry to the next. -/
theorem fovTable_strictly_increasing :
    fovTable.length = 36 ∧
      (∀ i, i + 1 < fovTable.length →
        (fovTable.getD i ⟨0, 0⟩).internalFov < (fovTable.getD (i + 1) ⟨0, 0⟩).internalFov ∧
        (fovTable.getD i ⟨0, 0⟩).displayFov < (fovTable.getD (i + 1) ⟨0, 0⟩).displayFov) ∧
      List.Chain' (fun a b : FovPair => a.internalFov < b.internalFov) fovTable ∧
      List.Chain' (fun a b : FovPair => a.displayFov < b.displayFov) fovTable :=
  ⟨rfl, fun i hi => entry_step i hi,
    fovTable_chain.imp (fun {_ _} h => h.1), fovTable_chain.imp (fun {_ _} h => h.2)⟩

/-! ## The pattern scan -/

theorem memcmpEq_iff (mem : Nat → Nat) (pat : List Nat) (a : Nat) :
    memcmpEq mem a pat kLen = true ↔ MatchAt mem pat a := by
  simp [memcmpEq, MatchAt]

theorem scanLoop_some_iff (mem : Nat → Nat) (pat : List Nat) :
    ∀ n cur a, scanLoop mem pat cur n = some a ↔
      cur ≤ a ∧ a < cur + n ∧ MatchAt mem pat a ∧
        ∀ b, cur ≤ b → b < a → ¬ MatchAt mem pat b := by
  intro n
  induction n with
  | zero =>
    intro cur a
    simp only [scanLoop]
    constructor
    · intro h; exact absurd h (by simp)
    · rintro ⟨h1, h2, _⟩; omega
  | succ n ih =>
    intro cur a
    rw [scanLoop]
    by_cases hm : memcmpEq mem cur pat kLen = true
    · rw [if_pos hm]
      have hM := (memcmpEq_iff mem pat cur).mp hm
      constructor
      · intro h
        have : cur = a := by simpa using h
        subst this
        exact ⟨le_refl _, by omega, hM, fun b h1 h2 => by omega⟩
      · rintro ⟨h1, _, _, h4⟩
        rcases Nat.eq_or_lt_of_le h1 with e | e
        · rw [e]
        · exact absurd hM (h4 cur (le_refl _) e)
    · rw [if_neg hm]
      have hM : ¬ MatchAt mem pat cur := fun h => hm ((memcmpEq_iff mem pat cur).mpr h)
      rw [ih (cur + 1) a]
      constructor
      · rintro ⟨h1, h2, h3, h4⟩
        refine ⟨by omega, by omega, h3, ?_⟩
        intro b hb1 hb2
        rcases Nat.eq_or_lt_of_le hb1 with e | e
        · rw [← e]; exact hM
        · exact h4 b e hb2
      · rintro ⟨h1, h2, h3, h4⟩
        have hne : cur ≠ a := fun e => hM (e ▸ h3)
        exact ⟨by omega, by omega, h3, fun b hb1 hb2 => h4 b (by omega) hb2⟩

theorem scanLoop_none_iff (mem : Nat → Nat) (pat : List Nat) :
    ∀ n cur, scanLoop mem pat cur n = none ↔
      ∀ b, cur ≤ b → b < cur + n → ¬ MatchAt mem pat b := by
  intro n
  induction n with
  | zero =>
    intro cur
    simp only [scanLoop, true_iff]
    intro b h1 h2; omega
  | succ n ih =>
    intro cur
    rw [scanLoop]
    by_cases hm : memcmpEq mem cur pat kLen = true
    · rw [if_pos hm]
      have hM := (memcmpEq_iff mem pat cur).mp hm
      constructor
      · intro h; exact absurd h (by simp)
      · intro h; exact absurd hM (h cur (le_refl _) (by omega))
    · rw [if_neg hm]
      have hM : ¬ MatchAt mem pat cur := fun h => hm ((memcmpEq_iff mem pat cur).mpr h)
      rw [ih (cur + 1)]
      constructor
      · intro h b hb1 hb2
        rcases Nat.eq_or_lt_of_le hb1 with e | e
        · rw [← e]; exact hM
        · exact h b e (by omega)
      · intro h b hb1 hb2
        exact h b (by omega) (by omega)

theorem FindPattern_some_iff (s : State) (pat : List Nat) (a : Nat) :
    FindPattern s pat = some a ↔ FirstMatch s pat a := by
  unfold FindPattern FirstMatch Occurs GetTextSection
  cases ht : s.text with
  | none => simp
  | some r =>
    obtain ⟨base, size⟩ := r
    simp only [Option.some.injEq, Prod.mk.injEq]
    by_cases hs : size < kLen
    · simp only [hs, if_true]
      constructor
      · intro h; exact absurd h (by simp)
      · rintro ⟨⟨b, z, ⟨rfl, rfl⟩, h1, _⟩, _⟩; omega
    · simp only [hs, if_false]
      rw [scanLoop_some_iff]
      constructor
      · rintro ⟨h1, h2, h3, h4⟩
        refine ⟨⟨base, size, ⟨rfl, rfl⟩, by omega, h1, by omega, h3⟩, ?_⟩
        rintro b hb ⟨b0, z0, ⟨rfl, rfl⟩, _, h6, _, h8⟩
        exact h4 b h6 hb h8
      · rintro ⟨⟨b0, z0, ⟨rfl, rfl⟩, h1, h2, h3, h4⟩, h5⟩
        refine ⟨h2, by omega, h4, ?_⟩
        intro b hb1 hb2 hM
        exact h5 b hb2 ⟨base, size, ⟨rfl, rfl⟩, h1, hb1, by omega, hM⟩

theorem FindPattern_none_iff (s : State) (pat : List Nat) :
    FindPattern s pat = none ↔ ¬ ∃ a, Occurs s pat a := by
  unfold FindPattern Occurs GetTextSection
  cases ht : s.text with
  | none => simp
  | some r =>
    obtain ⟨base, size⟩ := r
    simp only [Option.some.injEq, Prod.mk.injEq]
    by_cases hs : size < kLen
    · simp only [hs, if_true, true_iff]
      rintro ⟨a, b, z, ⟨rfl, rfl⟩, h1, _⟩; omega
    · simp only [hs, if_false]
      rw [scanLoop_none_iff]
      constructor
      · rintro h ⟨a, b0, z0, ⟨rfl, rfl⟩, h1, h2, h3, h4⟩
        exact h a h2 (by omega) h4
      · intro h b hb1 hb2 hM
        exact h ⟨b, base, size, ⟨rfl, rfl⟩, by omega, hb1, by omega, hM⟩

/-- The target is resolvable exactly when it is resolved already or one of the two
patterns occurs in the code region. -/
theorem EnsureTarget_true_iff (s : State) :
    (EnsureTarget s).1 = true ↔
      (∃ t, s.g_patch = some t) ∨ (∃ a, Occurs s kPatOff a) ∨ (∃ a, Occurs s kPatOn a) := by
  have hoff := FindPattern_none_iff s kPatOff
  have hon := FindPattern_none_iff s kPatOn
  unfold EnsureTarget
  cases hg : s.g_patch with
  | some t => simp
  | none =>
    cases h1 : FindPattern s kPatOff with
    | some p =>
      have : ∃ a, Occurs s kPatOff a := by
        by_contra hc; rw [hoff.mpr hc] at h1; exact absurd h1 (by simp)
      simp [this]
    | none =>
      have hno := hoff.mp h1
      cases h2 : FindPattern s kPatOn with
      | some p =>
        have : ∃ a, Occurs s kPatOn a := by
          by_contra hc; rw [hon.mpr hc] at h2; exact absurd h2 (by simp)
        simp [this]
      | none =>
        have hno2 := hon.mp h2
        simp [hno, hno2]

/-! ## Claims about the pattern locator and the target resolver -/

/-- C11. `IsPatchingAllowed()` returns true if and only if the gate is open and the
target is resolvable: already resolved, or one of the two signatures occurs in the
code region. -/
theorem IsPatchingAllowed_iff (s : State) :
    (IsPatchingAllowed s).1 = true ↔
      s.g_patchEnabled = true ∧
        ((∃ t, s.g_patch = some t) ∨ (∃ a, Occurs s kPatOff a) ∨ (∃ a, Occurs s kPatOn a)) := by
  rw [← EnsureTarget_true_iff]
  unfold IsPatchingAllowed
  cases hg : s.g_patchEnabled <;> simp

/-- Instances of C11: allowed on the fresh unlocked sample, where the unlocked
signature occurs at address 4104; refused once the gate is closed and where no
signature occurs. -/
theorem IsPatchingAllowed_iff_witness :
    (IsPatchingAllowed freshUnlocked).1 = true ∧
      (IsPatchingAllowed (PreventPatching freshUnlocked).2).1 = false ∧
      (IsPatchingAllowed noPattern).1 = false ∧
      (∃ a, Occurs freshUnlocked kPatOff a) :=
  ⟨by decide, by decide, by decide,
    (((IsPatchingAllowed_iff freshUnlocked).mp (by decide)).2.resolve_left
      (by simp [freshUnlocked])).resolve_right
      (fun h => absurd ((FindPattern_none_iff freshUnlocked kPatOn).mp (by decide)) (not_not.mpr h))⟩

/-- C12. `FindPattern` returns the first exact match: with the code region
`(base, size)`, the result is the address `base + i` of the smallest offset
`i <= size - 32` at which the 32 bytes equal the pattern byte for byte, and it is
not found exactly when there is no such offset, in particular when the region
cannot be located or is shorter than 32 bytes. The function only reads memory: it
returns no state. -/
theorem FindPattern_first_match (s : State) (pat : List Nat) :
    kLen = 32 ∧
    (GetTextSection s = none → FindPattern s pat = none) ∧
    (∀ base size, GetTextSection s = some (base, size) →
      (size < kLen → FindPattern s pat = none) ∧
      (∀ a, FindPattern s pat = some a → ∃ i, a = base + i) ∧
      (∀ i, FindPattern s pat = some (base + i) ↔
        kLen ≤ size ∧ i ≤ size - kLen ∧ MatchAt s.mem pat (base + i) ∧
          ∀ j, j < i → ¬ MatchAt s.mem pat (base + j)) ∧
      (FindPattern s pat = none ↔
        ¬ ∃ i, kLen ≤ size ∧ i ≤ size - kLen ∧ MatchAt s.mem pat (base + i))) := by
  refine ⟨rfl, ?_, ?_⟩
  · intro h
    unfold FindPattern
    rw [h]
  · intro base size h
    have hocc : ∀ a, Occurs s pat a ↔
        kLen ≤ size ∧ base ≤ a ∧ a ≤ base + (size - kLen) ∧ MatchAt s.mem pat a := by
      intro a
      unfold Occurs
      rw [h]
      constructor
      · rintro ⟨b, z, hbz, h1⟩
        simp only [Option.some.injEq, Prod.mk.injEq] at hbz
        obtain ⟨rfl, rfl⟩ := hbz
        exact h1
      · intro h1; exact ⟨base, size, rfl, h1⟩
    refine ⟨?_, ?_, ?_, ?_⟩
    · intro hs
      rw [FindPattern_none_iff]
      rintro ⟨a, ha⟩
      have := ((hocc a).mp ha).1
      omega
    · intro a ha
      have h1 := ((hocc a).mp ((FindPattern_some_iff s pat a).mp ha).1).2.1
      exact ⟨a - base, by omega⟩
    · intro i
      rw [FindPattern_some_iff]
      unfold FirstMatch
      constructor
      · rintro ⟨h1, h2⟩
        obtain ⟨k1, _, k3, k4⟩ := (hocc _).mp h1
        refine ⟨k1, by omega, k4, ?_⟩
        intro j hj hM
        exact h2 (base + j) (by omega) ((hocc _).mpr ⟨k1, by omega, by omega, hM⟩)
      · rintro ⟨h1, h2, h3, h4⟩
        refine ⟨(hocc _).mpr ⟨h1, by omega, by omega, h3⟩, ?_⟩
        intro b hb hO
        obtain ⟨_, k2, _, k4⟩ := (hocc _).mp hO
        have hb2 : b = base + (b - base) := by omega
        rw [hb2] at k4
        exact h4 (b - base) (by omega) k4
    · rw [FindPattern_none_iff]
      constructor
      · rintro hn ⟨i, h1, h2, h3⟩
        exact hn ⟨base + i, (hocc _).mpr ⟨h1, by omega, by omega, h3⟩⟩
      · rintro hn ⟨a, ha⟩
        obtain ⟨k1, k2, k3, k4⟩ := (hocc _).mp ha
        have ha2 : a = base + (a - base) := by omega
        rw [ha2] at k4
        exact hn ⟨a - base, k1, by omega, k4⟩

/-- Instances of C12: the unlocked pattern is found at offset 8 of the fresh unlocked
sample, which is therefore its first match, and the locked pattern is not found. -/
theorem FindPattern_first_match_witness :
    FindPattern freshUnlocked kPatOff = some (4096 + 8) ∧
      (MatchAt freshUnlocked.mem kPatOff (4096 + 8) ∧
        ∀ j, j < 8 → ¬ MatchAt freshUnlocked.mem kPatOff (4096 + j)) ∧
      FindPattern freshUnlocked kPatOn = none :=
  ⟨by decide,
    (((FindPattern_first_match freshUnlocked kPatOff).2.2 4096 64 rfl).2.2.1 8).mp
      (by decide) |>.2.2,
    by decide⟩

/-- C13. `EnsureTarget()` on an unresolved target: if the unlocked signature occurs,
the target becomes its first match plus 16; otherwise, if the locked signature
occurs, the target becomes the first locked match plus 16; in both cases the result
is true. If neither occurs the result is false and the target stays unresolved, so a
later call scans again and resolves the target once a signature is there. -/
theorem EnsureTarget_unresolved (s : State) (h : s.g_patch = none) :
    (∀ a, FirstMatch s kPatOff a →
      EnsureTarget s = (true, { s with g_patch := some (a + 16) })) ∧
    ((¬ ∃ a, Occurs s kPatOff a) → ∀ a, FirstMatch s kPatOn a →
      EnsureTarget s = (true, { s with g_patch := some (a + 16) })) ∧
    ((¬ ∃ a, Occurs s kPatOff a) → (¬ ∃ a, Occurs s kPatOn a) →
      EnsureTarget s = (false, s) ∧ (EnsureTarget s).2.g_patch = none ∧
      ∀ mem2 a, FirstMatch { s with mem := mem2 } kPatOff a →
        EnsureTarget { (EnsureTarget s).2 with mem := mem2 } =
          (true, { s with mem := mem2, g_patch := some (a + 16) })) := by
  have key : ∀ (s : State), s.g_patch = none → ∀ a, FirstMatch s kPatOff a →
      EnsureTarget s = (true, { s with g_patch := some (a + 16) }) := by
    intro s h a ha
    unfold EnsureTarget
    rw [h, (FindPattern_some_iff s kPatOff a).mpr ha]
    rfl
  refine ⟨key s h, ?_, ?_⟩
  · intro hoff a ha
    unfold EnsureTarget
    rw [h, (FindPattern_none_iff s kPatOff).mpr hoff, (FindPattern_some_iff s kPatOn a).mpr ha]
    rfl
  · intro hoff hon
    have hE : EnsureTarget s = (false, s) := by
      unfold EnsureTarget
      rw [h, (FindPattern_none_iff s kPatOff).mpr hoff, (FindPattern_none_iff s kPatOn).mpr hon]
    refine ⟨hE, by rw [hE]; exact h, ?_⟩
    intro mem2 a ha
    rw [hE]
    exact key { s with mem := mem2 } h a ha

/-- Instances of C13: on the fresh unlocked sample the first match of the unlocked
signature is 4104 and the target becomes 4120; on the fresh locked sample the
unlocked signature is absent and the locked one resolves the target; where neither
occurs the call fails and leaves the state as it was. -/
theorem EnsureTarget_unresolved_witness :
    freshUnlocked.g_patch = none ∧ FirstMatch freshUnlocked kPatOff 4104 ∧
      EnsureTarget freshUnlocked = (true, { freshUnlocked with g_patch := some 4120 }) ∧
      EnsureTarget freshLocked = (true, { freshLocked with g_patch := some 4120 }) ∧
      EnsureTarget noPattern = (false, noPattern) :=
  ⟨rfl, (FindPattern_some_iff freshUnlocked kPatOff 4104).mp (by decide),
    (EnsureTarget_unresolved freshUnlocked rfl).1 4104
      ((FindPattern_some_iff freshUnlocked kPatOff 4104).mp (by decide)),
    (EnsureTarget_unresolved freshLocked rfl).2.1
      ((FindPattern_none_iff freshLocked kPatOff).mp (by decide)) 4104
      ((FindPattern_some_iff freshLocked kPatOn 4104).mp (by decide)),
    ((EnsureTarget_unresolved noPattern rfl).2.2
      ((FindPattern_none_iff noPattern kPatOff).mp (by decide))
      ((FindPattern_none_iff noPattern kPatOn).mp (by decide))).1⟩

/-! ## What the mutating operations write -/

theorem IsLocked_state (s : State) : (IsLocked s).2 = (EnsureTarget s).2 := by
  unfold IsLocked
  cases h : (EnsureTarget s).1 <;> simp [h]

theorem ApplyPatch_resolved {s : State} {t : Nat} (h : s.g_patch = some t)
    (enable protectOk : Bool) :
    ApplyPatch enable protectOk s = (false, s) ∨
      ApplyPatch enable protectOk s =
        (true, { s with mem := memcpy s.mem t (if enable then kOn else kOff) 3 }) := by
  unfold ApplyPatch
  rw [Write3_resolved h]
  by_cases hc : s.g_patchEnabled = true ∧ protectOk = true
  · right; rw [if_pos hc]
  · left; rw [if_neg hc]

/-- What `SetLocked(enable)` does to a state in one of three ways: nothing but
resolving the target, with either result, or one complete write of the payload. -/
theorem SetLocked_outcome (s : State) (enable protectOk : Bool) :
    (∃ r, SetLocked enable protectOk s = (r, (EnsureTarget s).2)) ∨
      ∃ t, (EnsureTarget s).2.g_patch = some t ∧
        (IsLocked s).1 = !enable ∧
        SetLocked enable protectOk s =
          (true, { (EnsureTarget s).2 with
            mem := memcpy s.mem t (if enable then kOn else kOff) 3 }) := by
  cases hr : (EnsureTarget s).1
  · left
    rw [SetLocked_unresolvable hr, EnsureTarget_false hr]
    exact ⟨false, rfl⟩
  · obtain ⟨t, ht⟩ := EnsureTarget_true hr
    rw [SetLocked_after_resolve, SetLocked_resolved ht]
    by_cases hb : enable = memcmpEq (EnsureTarget s).2.mem t kOn 3
    · left; rw [if_pos hb]; exact ⟨true, rfl⟩
    · rw [if_neg hb]
      rcases ApplyPatch_resolved ht enable protectOk with h | h
      · left; rw [h]; exact ⟨false, rfl⟩
      · right
        refine ⟨t, ht, ?_, ?_⟩
        · rw [IsLocked_after_resolve, IsLocked_resolved ht]
          cases enable <;> cases hm : memcmpEq (EnsureTarget s).2.mem t kOn 3 <;> simp_all
        · rw [h, EnsureTarget_mem]

/-- What `Toggle()` does to a state, in the same three ways. -/
theorem Toggle_outcome (s : State) (protectOk : Bool) :
    Toggle protectOk s = (false, (EnsureTarget s).2) ∨
      ∃ t, (EnsureTarget s).2.g_patch = some t ∧
        Toggle protectOk s =
          (true, { (EnsureTarget s).2 with
            mem := memcpy s.mem t (if (!(IsLocked s).1) = true then kOn else kOff) 3 }) := by
  cases hr : (EnsureTarget s).1
  · left
    rw [Toggle_unresolvable hr, EnsureTarget_false hr]
  · obtain ⟨t, ht⟩ := EnsureTarget_true hr
    rw [Toggle_after_resolve, Toggle_resolved ht, IsLocked_after_resolve s, IsLocked_resolved ht]
    rcases ApplyPatch_resolved ht (!memcmpEq (EnsureTarget s).2.mem t kOn 3) protectOk with h | h
    · left; rw [h]
    · right
      refine ⟨t, ht, ?_⟩
      rw [h, EnsureTarget_mem]

theorem memcpy_three (mem : Nat → Nat) (t : Nat) (bytes : List Nat) :
    memcpy mem t bytes 3 t = bytes.getD 0 0 ∧ memcpy mem t bytes 3 (t + 1) = bytes.getD 1 0 ∧
      memcpy mem t bytes 3 (t + 2) = bytes.getD 2 0 := by
  have h0 := memcpy_at mem t bytes 0 (by omega)
  exact ⟨by simpa using h0, memcpy_at mem t bytes 1 (by omega), memcpy_at mem t bytes 2 (by omega)⟩

theorem memcpy_elsewhere (mem : Nat → Nat) (t : Nat) (bytes : List Nat) (a : Nat)
    (h : a < t ∨ t + 3 ≤ a) : memcpy mem t bytes 3 a = mem a := by
  unfold memcpy
  have : ¬ (t ≤ a ∧ a < t + 3) := by omega
  rw [if_neg this]

/-! ## The patch site -/

theorem patterns_agree :
    ∀ k, k < 32 → ¬ (16 ≤ k ∧ k < 19) → kPatOn.getD k 0 = kPatOff.getD k 0 := by
  decide

theorem kPatOn_payload : ∀ k, k < 3 → kPatOn.getD (16 + k) 0 = kOn.getD k 0 := by
  decide

theorem kPatOff_payload : ∀ k, k < 3 → kPatOff.getD (16 + k) 0 = kOff.getD k 0 := by
  decide

theorem MatchAt_memcpy_payload (mem : Nat → Nat) (t : Nat) (enable : Bool) (ht : 16 ≤ t)
    (h : MatchAt mem kPatOn (t - 16) ∨ MatchAt mem kPatOff (t - 16)) :
    MatchAt (memcpy mem t (if enable then kOn else kOff) 3)
      (if enable then kPatOn else kPatOff) (t - 16) := by
  intro k hk
  have hk32 : k < 32 := hk
  by_cases hin : 16 ≤ k ∧ k < 19
  · have ha : t - 16 + k = t + (k - 16) := by omega
    rw [ha, memcpy_at mem t _ (k - 16) (by omega)]
    have hk2 : k = 16 + (k - 16) := by omega
    cases enable
    · simp only [Bool.false_eq_true, if_false]
      rw [hk2, kPatOff_payload (k - 16) (by omega)]; simp
    · simp only [if_true]
      rw [hk2, kPatOn_payload (k - 16) (by omega)]; simp
  · rw [memcpy_elsewhere mem t _ _ (by omega)]
    have hag := patterns_agree k hk32 hin
    rcases h with h | h
    · rw [h k hk]; cases enable
      · simpa using hag
      · simp
    · rw [h k hk]; cases enable
      · simp
      · simpa using hag.symm

theorem SiteIntact_EnsureTarget {s : State} (h : SiteIntact s) : SiteIntact (EnsureTarget s).2 := by
  cases hg : s.g_patch with
  | some t => rw [EnsureTarget_resolved hg]; exact h
  | none =>
    have key : ∀ pat p, FindPattern s pat = some p → pat = kPatOn ∨ pat = kPatOff →
        SiteIntact { s with g_patch := some (p + kDiff) } := by
      intro pat p hp hpat t ht
      have ht2 : p + kDiff = t := by simpa using ht
      obtain ⟨_, _, _, _, _, _, hM⟩ := ((FindPattern_some_iff s pat p).mp hp).1
      have h16 : t - 16 = p := by rw [← ht2]; simp [kDiff]
      refine ⟨by rw [← ht2]; simp [kDiff], ?_⟩
      rw [h16]
      rcases hpat with e | e
      · left; rw [← e]; exact hM
      · right; rw [← e]; exact hM
    unfold EnsureTarget
    rw [hg]
    cases h1 : FindPattern s kPatOff with
    | some p => exact key kPatOff p h1 (Or.inr rfl)
    | none =>
      cases h2 : FindPattern s kPatOn with
      | some p => exact key kPatOn p h2 (Or.inl rfl)
      | none => exact h

theorem SiteIntact_memcpy {s : State} {t : Nat} (h : SiteIntact s) (ht : s.g_patch = some t)
    (enable : Bool) :
    SiteIntact { s with mem := memcpy s.mem t (if enable then kOn else kOff) 3 } := by
  intro t2 ht2
  have e : t = t2 := by
    have : s.g_patch = some t2 := ht2
    rw [ht] at this; simpa using this
  subst e
  obtain ⟨h16, hM⟩ := h t ht
  refine ⟨h16, ?_⟩
  have := MatchAt_memcpy_payload s.mem t enable h16 hM
  cases enable
  · right; simpa using this
  · left; simpa using this

theorem SiteIntact_SetLocked {s : State} (h : SiteIntact s) (enable protectOk : Bool) :
    SiteIntact (SetLocked enable protectOk s).2 := by
  have hE := SiteIntact_EnsureTarget h
  rcases SetLocked_outcome s enable protectOk with ⟨r, hr⟩ | ⟨t, ht, _, hw⟩
  · rw [hr]; exact hE
  · rw [hw, ← EnsureTarget_mem s]
    exact SiteIntact_memcpy hE ht enable

theorem SiteIntact_Toggle {s : State} (h : SiteIntact s) (protectOk : Bool) :
    SiteIntact (Toggle protectOk s).2 := by
  have hE := SiteIntact_EnsureTarget h
  rcases Toggle_outcome s protectOk with hr | ⟨t, ht, hw⟩
  · rw [hr]; exact hE
  · rw [hw, ← EnsureTarget_mem s]
    exact SiteIntact_memcpy hE ht (!(IsLocked s).1)

theorem SiteIntact_step {s : State} (h : SiteIntact s) (op : Op) : SiteIntact (op.step s) := by
  cases op with
  | isPatchingAllowed =>
    show SiteIntact (IsPatchingAllowed s).2
    unfold IsPatchingAllowed
    split
    · exact h
    · exact SiteIntact_EnsureTarget h
  | preventPatching => exact h
  | releasePatching => exact h
  | isLocked =>
    show SiteIntact (IsLocked s).2
    rw [IsLocked_state]; exact SiteIntact_EnsureTarget h
  | lock p => exact SiteIntact_SetLocked h true p
  | unlock p => exact SiteIntact_SetLocked h false p
  | toggleLock p => exact SiteIntact_Toggle h p

theorem SiteIntact_runOps (ops : List Op) :
    ∀ s, SiteIntact s → SiteIntact (runOps s ops) := by
  induction ops with
  | nil => intro s h; exact h
  | cons op ops ih =>
    intro s h
    exact ih (op.step s) (SiteIntact_step h op)

/-! ## Claims about the target, the write and the patch site -/

/-- C14. The resolved target is write-once: in a state whose target is resolved to
`a`, whatever the memory holds, each of `IsPatchingAllowed`, `PreventPatching`,
`ReleasePatching`, `IsLocked`, `Lock`, `Unlock`, `Toggle` and `EnsureTarget` leaves
the target at `a`, and `EnsureTarget` returns at once without scanning. -/
theorem target_write_once (s : State) (a : Nat) (protectOk : Bool) (h : s.g_patch = some a) :
    (IsPatchingAllowed s).2.g_patch = some a ∧ (PreventPatching s).2.g_patch = some a ∧
      (ReleasePatching s).2.g_patch = some a ∧ (IsLocked s).2.g_patch = some a ∧
      (Lock protectOk s).2.g_patch = some a ∧ (Unlock protectOk s).2.g_patch = some a ∧
      (Toggle protectOk s).2.g_patch = some a ∧ (EnsureTarget s).2.g_patch = some a ∧
      EnsureTarget s = (true, s) := by
  have hE := EnsureTarget_resolved h
  have hS : ∀ e, (SetLocked e protectOk s).2.g_patch = some a := by
    intro e
    rcases SetLocked_outcome s e protectOk with ⟨r, hr⟩ | ⟨t, _, _, hw⟩
    · rw [hr, hE]; exact h
    · rw [hw, hE]; exact h
  refine ⟨?_, h, h, ?_, hS true, hS false, ?_, by rw [hE]; exact h, hE⟩
  · unfold IsPatchingAllowed
    split
    · exact h
    · rw [hE]; exact h
  · rw [IsLocked_state, hE]; exact h
  · rcases Toggle_outcome s protectOk with hr | ⟨t, _, hw⟩
    · rw [hr, hE]; exact h
    · rw [hw, hE]; exact h

/-- Instance of C14: the resolved locked sample keeps its target 4120 through an
unlocking write. -/
theorem target_write_once_witness :
    resolvedLocked.g_patch = some 4120 ∧ (Unlock true resolvedLocked).1 = true ∧
      (Unlock true resolvedLocked).2.g_patch = some 4120 :=
  ⟨rfl, by decide, (target_write_once resolvedLocked 4120 true rfl).2.2.2.2.2.1⟩

/-- C15. `Lock()`, `Unlock()` and `Toggle()` are fail-soft and atomic: a call that
returns false leaves every byte of memory unchanged, and a call that changes memory
leaves all 3 bytes at the target equal to the requested payload (`kOn` for `Lock`,
`kOff` for `Unlock`, the opposite of the state observed before for `Toggle`). -/
theorem mutations_fail_soft (s : State) (protectOk : Bool) :
    ((Lock protectOk s).1 = false → (Lock protectOk s).2.mem = s.mem) ∧
    ((Lock protectOk s).2.mem ≠ s.mem → ∃ t, (Lock protectOk s).2.g_patch = some t ∧
      (Lock protectOk s).2.mem t = 0x90 ∧ (Lock protectOk s).2.mem (t + 1) = 0x90 ∧
      (Lock protectOk s).2.mem (t + 2) = 0x90) ∧
    ((Unlock protectOk s).1 = false → (Unlock protectOk s).2.mem = s.mem) ∧
    ((Unlock protectOk s).2.mem ≠ s.mem → ∃ t, (Unlock protectOk s).2.g_patch = some t ∧
      (Unlock protectOk s).2.mem t = 0x89 ∧ (Unlock protectOk s).2.mem (t + 1) = 0x41 ∧
      (Unlock protectOk s).2.mem (t + 2) = 0x20) ∧
    ((Toggle protectOk s).1 = false → (Toggle protectOk s).2.mem = s.mem) ∧
    ((Toggle protectOk s).2.mem ≠ s.mem → ∃ t, (Toggle protectOk s).2.g_patch = some t ∧
      (((IsLocked s).1 = false ∧
        (Toggle protectOk s).2.mem t = 0x90 ∧ (Toggle protectOk s).2.mem (t + 1) = 0x90 ∧
        (Toggle protectOk s).2.mem (t + 2) = 0x90) ∨
      ((IsLocked s).1 = true ∧
        (Toggle protectOk s).2.mem t = 0x89 ∧ (Toggle protectOk s).2.mem (t + 1) = 0x41 ∧
        (Toggle protectOk s).2.mem (t + 2) = 0x20))) := by
  have hSf : ∀ e, (SetLocked e protectOk s).1 = false → (SetLocked e protectOk s).2.mem = s.mem := by
    intro e hf
    rcases SetLocked_outcome s e protectOk with ⟨r, hr⟩ | ⟨t, _, _, hw⟩
    · rw [hr]; exact EnsureTarget_mem s
    · rw [hw] at hf; exact absurd hf (by simp)
  have hSc : ∀ e, (SetLocked e protectOk s).2.mem ≠ s.mem →
      ∃ t, (SetLocked e protectOk s).2.g_patch = some t ∧
        (SetLocked e protectOk s).2.mem = memcpy s.mem t (if e then kOn else kOff) 3 := by
    intro e hc
    rcases SetLocked_outcome s e protectOk with ⟨r, hr⟩ | ⟨t, ht, _, hw⟩
    · rw [hr] at hc; exact absurd (EnsureTarget_mem s) hc
    · rw [hw]; exact ⟨t, ht, rfl⟩
  refine ⟨hSf true, ?_, hSf false, ?_, ?_, ?_⟩
  · intro hc
    obtain ⟨t, ht, hm⟩ := hSc true hc
    have h3 := memcpy_three s.mem t kOn
    refine ⟨t, ht, ?_⟩
    unfold Lock
    rw [hm]
    simpa [kOn] using h3
  · intro hc
    obtain ⟨t, ht, hm⟩ := hSc false hc
    have h3 := memcpy_three s.mem t kOff
    refine ⟨t, ht, ?_⟩
    unfold Unlock
    rw [hm]
    simpa [kOff] using h3
  · intro hf
    rcases Toggle_outcome s protectOk with hr | ⟨t, _, hw⟩
    · rw [hr]; exact EnsureTarget_mem s
    · rw [hw] at hf; exact absurd hf (by simp)
  · intro hc
    rcases Toggle_outcome s protectOk with hr | ⟨t, ht, hw⟩
    · rw [hr] at hc; exact absurd (EnsureTarget_mem s) hc
    · rw [hw]
      refine ⟨t, ht, ?_⟩
      cases hl : (IsLocked s).1
      · left
        have h3 := memcpy_three s.mem t kOn
        simpa [kOn] using h3
      · right
        have h3 := memcpy_three s.mem t kOff
        simpa [kOff] using h3

/-- Instances of C15: a refused `Lock()` on the fresh unlocked sample returns false and
leaves memory alone; a granted one changes memory and leaves `0x90, 0x90, 0x90` at
the target. -/
theorem mutations_fail_soft_witness :
    (Lock false freshUnlocked).1 = false ∧
      (Lock false freshUnlocked).2.mem = freshUnlocked.mem ∧
      (Lock true freshUnlocked).2.mem ≠ freshUnlocked.mem ∧
      ∃ t, (Lock true freshUnlocked).2.g_patch = some t ∧
        (Lock true freshUnlocked).2.mem t = 0x90 ∧
        (Lock true freshUnlocked).2.mem (t + 1) = 0x90 ∧
        (Lock true freshUnlocked).2.mem (t + 2) = 0x90 :=
  have hne : (Lock true freshUnlocked).2.mem ≠ freshUnlocked.mem :=
    fun h => absurd (congrFun h 4120) (by decide)
  ⟨by decide, (mutations_fail_soft freshUnlocked false).1 (by decide), hne,
    (mutations_fail_soft freshUnlocked true).2.1 hne⟩

/-- C18. `Write3` overwrites exactly 3 bytes: when it succeeds the bytes at the
target and the two addresses after it equal the payload and every other byte of
memory is unchanged; when the gate is closed or the target cannot be resolved it
returns false, and whenever it returns false memory is unchanged. -/
theorem Write3_frame (s : State) (b0 b1 b2 : Nat) (protectOk : Bool) :
    ((Write3 [b0, b1, b2] protectOk s).1 = true →
      ∃ t, (Write3 [b0, b1, b2] protectOk s).2.g_patch = some t ∧
        (Write3 [b0, b1, b2] protectOk s).2.mem t = b0 ∧
        (Write3 [b0, b1, b2] protectOk s).2.mem (t + 1) = b1 ∧
        (Write3 [b0, b1, b2] protectOk s).2.mem (t + 2) = b2 ∧
        ∀ a, a ≠ t → a ≠ t + 1 → a ≠ t + 2 →
          (Write3 [b0, b1, b2] protectOk s).2.mem a = s.mem a) ∧
    ((s.g_patchEnabled = false ∨ (EnsureTarget s).1 = false) →
      (Write3 [b0, b1, b2] protectOk s).1 = false) ∧
    ((Write3 [b0, b1, b2] protectOk s).1 = false →
      (Write3 [b0, b1, b2] protectOk s).2.mem = s.mem) := by
  cases hg : s.g_patchEnabled
  · have hW := Write3_closed hg [b0, b1, b2] protectOk
    rw [hW]
    exact ⟨fun h => absurd h (by simp), fun _ => rfl, fun _ => rfl⟩
  · cases hr : (EnsureTarget s).1
    · have hW : Write3 [b0, b1, b2] protectOk s = (false, s) := by
        unfold Write3
        simp [hg, EnsureTarget_false hr]
      rw [hW]
      exact ⟨fun h => absurd h (by simp), fun _ => rfl, fun _ => rfl⟩
    · obtain ⟨t, ht⟩ := EnsureTarget_true hr
      cases protectOk
      · have hW : Write3 [b0, b1, b2] false s = (false, (EnsureTarget s).2) := by
          unfold Write3
          simp [hg, hr]
        rw [hW]
        exact ⟨fun h => absurd h (by simp), fun h => by simp at h,
          fun _ => EnsureTarget_mem s⟩
      · have hW : Write3 [b0, b1, b2] true s =
            (true, { (EnsureTarget s).2 with mem := memcpy s.mem t [b0, b1, b2] 3 }) := by
          unfold Write3
          simp [hg, hr, ht, EnsureTarget_mem]
        rw [hW]
        have h3 := memcpy_three s.mem t [b0, b1, b2]
        refine ⟨fun _ => ⟨t, ht, by simpa using h3.1, by simpa using h3.2.1,
          by simpa using h3.2.2, ?_⟩, fun h => by simp at h, fun h => absurd h (by simp)⟩
        intro a h0 h1 h2
        exact memcpy_elsewhere s.mem t _ a (by omega)

/-- Instance of C18: writing `1, 2, 3` into the fresh unlocked sample succeeds and
lands at the target 4120. -/
theorem Write3_frame_witness :
    (Write3 [1, 2, 3] true freshUnlocked).1 = true ∧
      ∃ t, (Write3 [1, 2, 3] true freshUnlocked).2.g_patch = some t ∧
        (Write3 [1, 2, 3] true freshUnlocked).2.mem t = 1 ∧
        (Write3 [1, 2, 3] true freshUnlocked).2.mem (t + 1) = 2 ∧
        (Write3 [1, 2, 3] true freshUnlocked).2.mem (t + 2) = 3 ∧
        ∀ a, a ≠ t → a ≠ t + 1 → a ≠ t + 2 →
          (Write3 [1, 2, 3] true freshUnlocked).2.mem a = freshUnlocked.mem a :=
  ⟨by decide, (Write3_frame freshUnlocked 1 2 3 true).1 (by decide)⟩

/-- C20. Patch-site integrity. The two patterns are 32 bytes long, agree at every
index outside 16, 17, 18 and hold `kOn` and `kOff` there. Hence in every state
reached from an unresolved start by the module's operations, a resolved target lies
16 bytes into 32 bytes equal to `kPatOn` or `kPatOff`, the 3 bytes at the target are
exactly `kOn` or `kOff`, and `IsLocked()` is false exactly when they are `kOff`. -/
theorem patch_site_integrity (s0 : State) (ops : List Op) (t : Nat)
    (h0 : s0.g_patch = none) (ht : (runOps s0 ops).g_patch = some t) :
    (kPatOn.length = 32 ∧ kPatOff.length = 32 ∧
      (∀ i, i < 32 → ¬ (16 ≤ i ∧ i < 19) → kPatOn.getD i 0 = kPatOff.getD i 0) ∧
      (kPatOn.drop 16).take 3 = kOn ∧ (kPatOff.drop 16).take 3 = kOff) ∧
    16 ≤ t ∧
    (MatchAt (runOps s0 ops).mem kPatOn (t - 16) ∨ MatchAt (runOps s0 ops).mem kPatOff (t - 16)) ∧
    ([(runOps s0 ops).mem t, (runOps s0 ops).mem (t + 1), (runOps s0 ops).mem (t + 2)] = kOn ∨
      [(runOps s0 ops).mem t, (runOps s0 ops).mem (t + 1), (runOps s0 ops).mem (t + 2)] = kOff) ∧
    ((IsLocked (runOps s0 ops)).1 = false ↔
      [(runOps s0 ops).mem t, (runOps s0 ops).mem (t + 1), (runOps s0 ops).mem (t + 2)] = kOff) := by
  have hinit : SiteIntact s0 := by
    intro t0 h; rw [h0] at h; exact absurd h (by simp)
  obtain ⟨h16, hM⟩ := SiteIntact_runOps ops s0 hinit t ht
  have hbytes : ∀ pat, MatchAt (runOps s0 ops).mem pat (t - 16) →
      [(runOps s0 ops).mem t, (runOps s0 ops).mem (t + 1), (runOps s0 ops).mem (t + 2)] =
        [pat.getD 16 0, pat.getD 17 0, pat.getD 18 0] := by
    intro pat h
    have e0 := h 16 (by decide)
    have e1 := h 17 (by decide)
    have e2 := h 18 (by decide)
    have a0 : t - 16 + 16 = t := by omega
    have a1 : t - 16 + 17 = t + 1 := by omega
    have a2 : t - 16 + 18 = t + 2 := by omega
    rw [a0] at e0; rw [a1] at e1; rw [a2] at e2
    rw [e0, e1, e2]
  have hcases :
      [(runOps s0 ops).mem t, (runOps s0 ops).mem (t + 1), (runOps s0 ops).mem (t + 2)] = kOn ∨
      [(runOps s0 ops).mem t, (runOps s0 ops).mem (t + 1), (runOps s0 ops).mem (t + 2)] = kOff := by
    rcases hM with h | h
    · left; rw [hbytes kPatOn h]; rfl
    · right; rw [hbytes kPatOff h]; rfl
  refine ⟨⟨rfl, rfl, patterns_agree, rfl, rfl⟩, h16, hM, hcases, ?_⟩
  rw [IsLocked_resolved ht, memcmpEq_three]
  rcases hcases with h | h
  · have hh := h
    simp only [kOn, List.cons.injEq, and_true] at hh
    obtain ⟨e0, e1, e2⟩ := hh
    rw [h]
    simp [e0, e1, e2, kOn, kOff]
  · have hh := h
    simp only [kOff, List.cons.injEq, and_true] at hh
    obtain ⟨e0, e1, e2⟩ := hh
    rw [h]
    simp [e0, e1, e2, kOn, kOff]

/-- Instance of C20: the fresh unlocked sample after `Lock`, a closed gate and a
refused `Unlock`. -/
theorem patch_site_integrity_witness :
    freshUnlocked.g_patch = none ∧
      (runOps freshUnlocked [Op.lock true, Op.preventPatching, Op.unlock true]).g_patch =
        some 4120 ∧
      (IsLocked (runOps freshUnlocked [Op.lock true, Op.preventPatching, Op.unlock true])).1 =
        true ∧
      MatchAt (runOps freshUnlocked [Op.lock true, Op.preventPatching, Op.unlock true]).mem
        kPatOn (4120 - 16) :=
  ⟨rfl, by decide, by decide,
    ((patch_site_integrity freshUnlocked [Op.lock true, Op.preventPatching, Op.unlock true]
      4120 rfl (by decide)).2.2.1).resolve_right (fun h => absurd (h 16 (by decide)) (by decide))⟩

/-! ## The converter in single precision -/

set_option maxRecDepth 100000

/-- The digits of `fovDigits` are the literals of `fovTable`. -/
theorem fovTable_eq_fovDigits :
    fovTable = fovDigits.map (fun p => ⟨(p.1 : ℚ) / 10 ^ 8, (p.2 : ℚ)⟩) := by
  simp only [fovTable, fovDigits, List.map_cons, List.map_nil]
  norm_num

/-- Rounding the literals gives the values written out in `fovValues32`. -/
theorem fovTable32_eq : fovTable32 = fovValues32 := by
  decide!

/-! ## Rounding error -/

theorem spacingExp_le (fuel : Nat) :
    ∀ q, spacingExp fuel q = 0 ∨ 2 ^ (spacingExp fuel q + 23) ≤ q := by
  induction fuel with
  | zero => intro q; left; rfl
  | succ fuel ih =>
    intro q
    unfold spacingExp
    by_cases h : q < 2 ^ 24
    · left; rw [if_pos h]
    · right
      rw [if_neg h]
      rcases ih (q / 2) with h0 | h1
      · rw [h0]; exact Nat.le_of_not_lt h
      · have h2 : 2 ^ (spacingExp fuel (q / 2) + 1 + 23) = 2 * 2 ^ (spacingExp fuel (q / 2) + 23) := by
          rw [show spacingExp fuel (q / 2) + 1 + 23 = (spacingExp fuel (q / 2) + 23) + 1 by omega,
            pow_succ]
          ring
        rw [h2]
        have := Nat.mul_div_le q 2
        omega

theorem roundHalfEven_err (n d : Nat) (hd : 0 < d) :
    |((roundHalfEven n d : Nat) : ℚ) - (n : ℚ) / d| ≤ 1 / 2 := by
  have hdq : (0 : ℚ) < d := by exact_mod_cast hd
  have hn : (n : ℚ) = (d : ℚ) * ((n / d : Nat) : ℚ) + ((n % d : Nat) : ℚ) := by
    exact_mod_cast (Nat.div_add_mod n d).symm
  have hr : ((n % d : Nat) : ℚ) < d := by exact_mod_cast Nat.mod_lt n hd
  have hr0 : (0 : ℚ) ≤ ((n % d : Nat) : ℚ) := by positivity
  have hq : (n : ℚ) / d = ((n / d : Nat) : ℚ) + ((n % d : Nat) : ℚ) / d := by
    rw [eq_comm, ← sub_eq_zero]
    field_simp
    linarith
  rw [hq]
  unfold roundHalfEven
  simp only
  by_cases h1 : 2 * (n % d) < d
  · rw [if_pos h1]
    have h1q : 2 * ((n % d : Nat) : ℚ) < d := by exact_mod_cast h1
    have : ((n % d : Nat) : ℚ) / d ≤ 1 / 2 := by
      rw [div_le_iff₀ hdq]; linarith
    have h0 : 0 ≤ ((n % d : Nat) : ℚ) / d := div_nonneg hr0 (le_of_lt hdq)
    rw [abs_le]; constructor <;> linarith
  · rw [if_neg h1]
    have h1q : (d : ℚ) ≤ 2 * ((n % d : Nat) : ℚ) := by exact_mod_cast Nat.le_of_not_lt h1
    have hge : 1 / 2 ≤ ((n % d : Nat) : ℚ) / d := by
      rw [le_div_iff₀ hdq]; linarith
    have hlt : ((n % d : Nat) : ℚ) / d < 1 := by
      rw [div_lt_one hdq]; exact hr
    by_cases h2 : d < 2 * (n % d)
    · rw [if_pos h2]
      push_cast
      rw [abs_le]; constructor <;> linarith
    · rw [if_neg h2]
      have h2q : 2 * ((n % d : Nat) : ℚ) ≤ d := by exact_mod_cast Nat.le_of_not_lt h2
      have heq : ((n % d : Nat) : ℚ) / d = 1 / 2 := by
        apply le_antisymm _ hge
        rw [div_le_iff₀ hdq]; linarith
      by_cases h3 : n / d % 2 = 0
      · rw [if_pos h3, heq, abs_le]; constructor <;> linarith
      · rw [if_neg h3, heq]
        push_cast
        rw [abs_le]; constructor <;> linarith

theorem roundMag_err (n d : Nat) (hd : 0 < d) :
    |((roundMag n d : Nat) : ℚ) - (n : ℚ) / d| ≤ 1 / 2 + ((n : ℚ) / d) / 2 ^ 24 := by
  have hdq : (0 : ℚ) < d := by exact_mod_cast hd
  have hq0 : (0 : ℚ) ≤ (n : ℚ) / d := by positivity
  unfold roundMag
  simp only
  generalize hsh : spacingExp (n / d) (n / d) = sh
  have hpow : (0 : ℚ) < 2 ^ sh := by positivity
  have hd2 : 0 < d * 2 ^ sh := Nat.mul_pos hd (by positivity)
  have hk := roundHalfEven_err n (d * 2 ^ sh) hd2
  have hsplit : (n : ℚ) / d = (n : ℚ) / ((d * 2 ^ sh : Nat) : ℚ) * 2 ^ sh := by
    push_cast; field_simp; ring
  have herr : |((roundHalfEven n (d * 2 ^ sh) * 2 ^ sh : Nat) : ℚ) - (n : ℚ) / d| ≤ 2 ^ sh / 2 := by
    rw [hsplit]
    push_cast
    have : ((roundHalfEven n (d * 2 ^ sh) : Nat) : ℚ) * 2 ^ sh -
        (n : ℚ) / ((d : ℚ) * 2 ^ sh) * 2 ^ sh =
        (((roundHalfEven n (d * 2 ^ sh) : Nat) : ℚ) - (n : ℚ) / ((d : ℚ) * 2 ^ sh)) * 2 ^ sh := by
      ring
    rw [this, abs_mul, abs_of_pos hpow]
    push_cast at hk
    calc |((roundHalfEven n (d * 2 ^ sh) : Nat) : ℚ) - (n : ℚ) / ((d : ℚ) * 2 ^ sh)| * 2 ^ sh
        ≤ 1 / 2 * 2 ^ sh := mul_le_mul_of_nonneg_right hk (le_of_lt hpow)
      _ = 2 ^ sh / 2 := by ring
  refine le_trans herr ?_
  rcases spacingExp_le (n / d) (n / d) with h0 | h1
  · rw [hsh] at h0
    rw [h0]
    have : (0 : ℚ) ≤ (n : ℚ) / d / 2 ^ 24 := by positivity
    norm_num
    linarith
  · rw [hsh] at h1
    have hfloor : ((n / d : Nat) : ℚ) ≤ (n : ℚ) / d := Nat.cast_div_le
    have h1q : ((2 ^ (sh + 23) : Nat) : ℚ) ≤ ((n / d : Nat) : ℚ) := by exact_mod_cast h1
    have h2 : (2 : ℚ) ^ sh / 2 = 2 ^ (sh + 23) / 2 ^ 24 := by
      rw [pow_add]; norm_num; ring
    rw [h2]
    have h3 : (2 : ℚ) ^ (sh + 23) / 2 ^ 24 ≤ (n : ℚ) / d / 2 ^ 24 := by
      apply div_le_div_of_nonneg_right _ (by positivity)
      push_cast at h1q
      linarith
    linarith

/-- Rounding a value of moderate size gives a finite float within half a unit plus
one part in `2^24` of it. -/
theorem F32_round_err (num : Int) (den : Nat) (hd : 0 < den)
    (hb : |(num : ℚ) / den| ≤ 2 ^ 160) :
    ∃ r : Int, F32.round num den = F32.fin r ∧
      |(r : ℚ) - (num : ℚ) / den| ≤ 1 / 2 + |(num : ℚ) / den| / 2 ^ 24 := by
  have hdq : (0 : ℚ) < den := by exact_mod_cast hd
  have habs : |(num : ℚ) / den| = ((num.natAbs : Nat) : ℚ) / den := by
    rw [abs_div, abs_of_pos hdq, Nat.cast_natAbs, Int.cast_abs]
  have hA0 : (0 : ℚ) ≤ ((num.natAbs : Nat) : ℚ) / den := by positivity
  have hm := roundMag_err num.natAbs den hd
  rw [habs] at hb ⊢
  have hmb : ((roundMag num.natAbs den : Nat) : ℚ) < 2 ^ 162 := by
    have h1 := (abs_le.mp hm).2
    have h2 : ((num.natAbs : Nat) : ℚ) / den / 2 ^ 24 ≤ ((num.natAbs : Nat) : ℚ) / den := by
      apply div_le_self hA0; norm_num
    have h3 : (2 : ℚ) ^ 162 = 2 ^ 160 * 4 := by rw [pow_succ, pow_succ]; ring
    have h4 : (1 : ℚ) ≤ 2 ^ 160 := one_le_pow₀ (by norm_num)
    rw [h3]; linarith
  have hno : ¬ 2 ^ 128 ≤ roundMag num.natAbs den / 2 ^ 149 := by
    intro hc
    have h5 : 2 ^ 128 * 2 ^ 149 ≤ roundMag num.natAbs den :=
      le_trans (Nat.mul_le_mul_right _ hc) (Nat.div_mul_le_self _ _)
    have h6 : ((2 ^ 128 * 2 ^ 149 : Nat) : ℚ) ≤ ((roundMag num.natAbs den : Nat) : ℚ) :=
      Nat.cast_le.mpr h5
    rw [Nat.cast_mul, Nat.cast_pow, Nat.cast_pow, Nat.cast_ofNat, ← pow_add] at h6
    have h7 : (2 : ℚ) ^ 162 ≤ 2 ^ (128 + 149) :=
      pow_le_pow_right₀ (by norm_num) (by norm_num)
    linarith
  unfold F32.round
  simp only [hno, if_false]
  by_cases hs : 0 ≤ num
  · refine ⟨(roundMag num.natAbs den : Nat), by rw [if_pos hs], ?_⟩
    have hcast : (num : ℚ) / den = ((num.natAbs : Nat) : ℚ) / den := by
      rw [← habs, abs_of_nonneg]
      exact div_nonneg (by exact_mod_cast hs) (le_of_lt hdq)
    rw [hcast]
    exact_mod_cast hm
  · refine ⟨-(roundMag num.natAbs den : Nat), by rw [if_neg hs], ?_⟩
    have hneg : (num : ℚ) / den = -(((num.natAbs : Nat) : ℚ) / den) := by
      rw [← habs, abs_of_nonpos, neg_neg]
      apply div_nonpos_of_nonpos_of_nonneg _ (le_of_lt hdq)
      have : num ≤ 0 := by omega
      exact_mod_cast this
    rw [hneg]
    push_cast
    have : -((roundMag num.natAbs den : Nat) : ℚ) - -(((num.natAbs : Nat) : ℚ) / den) =
        -(((roundMag num.natAbs den : Nat) : ℚ) - ((num.natAbs : Nat) : ℚ) / den) := by ring
    rw [this, abs_neg]
    exact hm

/-- Rounding seen on values: if `num / den` units stand for the value `v`, the rounded
float is finite and within `2^-150 + |v| / 2^24` of `v`. -/
theorem F32_round_val (num : Int) (den : Nat) (v : ℚ) (hd : 0 < den)
    (hv : (num : ℚ) / den = v * 2 ^ 149) (hb : |v| ≤ 2 ^ 10) :
    ∃ r : Int, F32.round num den = F32.fin r ∧
      |F32.toRat (F32.fin r) - v| ≤ 1 / 2 ^ 150 + |v| / 2 ^ 24 := by
  have hU : (0 : ℚ) < 2 ^ 149 := by positivity
  have habs : |(num : ℚ) / den| = |v| * 2 ^ 149 := by
    rw [hv, abs_mul, abs_of_pos hU]
  have hbig : |(num : ℚ) / den| ≤ 2 ^ 160 := by
    rw [habs]
    calc |v| * 2 ^ 149 ≤ 2 ^ 10 * 2 ^ 149 := mul_le_mul_of_nonneg_right hb (le_of_lt hU)
      _ = 2 ^ 159 := by rw [← pow_add]
      _ ≤ 2 ^ 160 := pow_le_pow_right₀ (by norm_num) (by norm_num)
  obtain ⟨r, hr, he⟩ := F32_round_err num den hd hbig
  refine ⟨r, hr, ?_⟩
  rw [habs, hv] at he
  have h1 : F32.toRat (F32.fin r) - v = ((r : ℚ) - v * 2 ^ 149) / 2 ^ 149 := by
    unfold F32.toRat; field_simp; ring
  rw [h1, abs_div, abs_of_pos hU, div_le_iff₀ hU]
  have h2 : (1 / 2 ^ 150 + |v| / 2 ^ 24) * (2 : ℚ) ^ 149 = 1 / 2 + |v| * 2 ^ 149 / 2 ^ 24 := by
    rw [pow_succ]; field_simp; ring
  rw [h2]
  exact he

theorem F32_sub_val (a b : Int)
    (hb : |F32.toRat (F32.fin a) - F32.toRat (F32.fin b)| ≤ 2 ^ 10) :
    ∃ r : Int, F32.sub (F32.fin a) (F32.fin b) = F32.fin r ∧
      |F32.toRat (F32.fin r) - (F32.toRat (F32.fin a) - F32.toRat (F32.fin b))| ≤
        1 / 2 ^ 150 + |F32.toRat (F32.fin a) - F32.toRat (F32.fin b)| / 2 ^ 24 := by
  apply F32_round_val (a - b) 1 _ Nat.one_pos _ hb
  unfold F32.toRat
  push_cast
  field_simp

theorem F32_add_val (a b : Int)
    (hb : |F32.toRat (F32.fin a) + F32.toRat (F32.fin b)| ≤ 2 ^ 10) :
    ∃ r : Int, F32.add (F32.fin a) (F32.fin b) = F32.fin r ∧
      |F32.toRat (F32.fin r) - (F32.toRat (F32.fin a) + F32.toRat (F32.fin b))| ≤
        1 / 2 ^ 150 + |F32.toRat (F32.fin a) + F32.toRat (F32.fin b)| / 2 ^ 24 := by
  apply F32_round_val (a + b) 1 _ Nat.one_pos _ hb
  unfold F32.toRat
  push_cast
  field_simp

theorem F32_mul_val (a b : Int)
    (hb : |F32.toRat (F32.fin a) * F32.toRat (F32.fin b)| ≤ 2 ^ 10) :
    ∃ r : Int, F32.mul (F32.fin a) (F32.fin b) = F32.fin r ∧
      |F32.toRat (F32.fin r) - F32.toRat (F32.fin a) * F32.toRat (F32.fin b)| ≤
        1 / 2 ^ 150 + |F32.toRat (F32.fin a) * F32.toRat (F32.fin b)| / 2 ^ 24 := by
  apply F32_round_val (a * b) (2 ^ 149) _ (by positivity) _ hb
  unfold F32.toRat
  push_cast
  field_simp
  ring

theorem F32_div_val (a b : Int) (hpos : 0 < b)
    (hb : |F32.toRat (F32.fin a) / F32.toRat (F32.fin b)| ≤ 2 ^ 10) :
    ∃ r : Int, F32.div (F32.fin a) (F32.fin b) = F32.fin r ∧
      |F32.toRat (F32.fin r) - F32.toRat (F32.fin a) / F32.toRat (F32.fin b)| ≤
        1 / 2 ^ 150 + |F32.toRat (F32.fin a) / F32.toRat (F32.fin b)| / 2 ^ 24 := by
  have hne : b ≠ 0 := by omega
  have hbq : (0 : ℚ) < (b : ℚ) := by exact_mod_cast hpos
  have hdiv : F32.div (F32.fin a) (F32.fin b) = F32.round (a * 2 ^ 149) b.natAbs := by
    unfold F32.div
    simp only [hne, if_false, hpos, if_true]
  rw [hdiv]
  apply F32_round_val (a * 2 ^ 149) b.natAbs _ (by omega) _ hb
  have hnat : ((b.natAbs : Nat) : ℚ) = (b : ℚ) := by
    rw [Nat.cast_natAbs, Int.cast_abs, abs_of_pos hbq]
  rw [hnat]
  unfold F32.toRat
  push_cast
  field_simp
  left
  norm_num

/-! ## Error of one interpolation -/

theorem round_bound_le (v bound : ℚ) (hv : |v| ≤ bound) :
    1 / 2 ^ 150 + |v| / 2 ^ 24 ≤ (bound + 1) / 2 ^ 24 := by
  have h1 : (1 : ℚ) / 2 ^ 150 ≤ 1 / 2 ^ 24 := by
    apply one_div_le_one_div_of_le (by positivity)
    exact pow_le_pow_right₀ (by norm_num) (by norm_num)
  have h2 : |v| / 2 ^ 24 ≤ bound / 2 ^ 24 := div_le_div_of_nonneg_right hv (by positivity)
  have h3 : (bound + 1) / 2 ^ 24 = bound / 2 ^ 24 + 1 / 2 ^ 24 := by ring
  linarith

theorem quot_err (D W d w c : ℚ) (hD0 : 0 ≤ D) (hDW : D ≤ W) (hW : 2 ≤ W)
    (hd : |d - D| ≤ c) (hw : |w - W| ≤ c) (hc : c ≤ 1 / 100) :
    |d / w - D / W| ≤ 11 / 10 * c := by
  have hc0 : 0 ≤ c := le_trans (abs_nonneg _) hd
  have hw1 := abs_le.mp hw
  have hwpos : 0 < w := by linarith
  have hWpos : 0 < W := by linarith
  have hwW : 0 < w * W := mul_pos hwpos hWpos
  have heq : d / w - D / W = ((d - D) * W - D * (w - W)) / (w * W) := by
    field_simp; ring
  rw [heq, abs_div, abs_of_pos hwW, div_le_iff₀ hwW]
  have hnum : |(d - D) * W - D * (w - W)| ≤ c * W + W * c := by
    calc |(d - D) * W - D * (w - W)| ≤ |(d - D) * W| + |D * (w - W)| := abs_sub _ _
      _ = |d - D| * W + D * |w - W| := by
        rw [abs_mul, abs_mul, abs_of_pos hWpos, abs_of_nonneg hD0]
      _ ≤ c * W + W * c := by
        have h1 : |d - D| * W ≤ c * W := mul_le_mul_of_nonneg_right hd (le_of_lt hWpos)
        have h2 : D * |w - W| ≤ W * c :=
          mul_le_mul hDW hw (abs_nonneg _) (le_of_lt hWpos)
        linarith
  have hfin : c * W + W * c ≤ 11 / 10 * c * (w * W) := by
    have h1 : 0 ≤ c * W := mul_nonneg hc0 (le_of_lt hWpos)
    have h2 : 0 ≤ 11 / 10 * w - 2 := by linarith
    have h3 := mul_nonneg h1 h2
    nlinarith
  linarith

/-- The interpolation of the loop body computed in floats stays within `2^-15` of the
exact interpolation, for a segment at least 2 and at most 9 wide on both axes whose
lower target value lies between 0 and 176. -/
theorem interp32_err (m a0 a1 b0 b1 : Int)
    (hx0 : F32.toRat (F32.fin a0) < F32.toRat (F32.fin m))
    (hx1 : F32.toRat (F32.fin m) ≤ F32.toRat (F32.fin a1))
    (hW1 : 2 ≤ F32.toRat (F32.fin a1) - F32.toRat (F32.fin a0))
    (hW2 : F32.toRat (F32.fin a1) - F32.toRat (F32.fin a0) ≤ 9)
    (hH1 : 0 ≤ F32.toRat (F32.fin b1) - F32.toRat (F32.fin b0))
    (hH2 : F32.toRat (F32.fin b1) - F32.toRat (F32.fin b0) ≤ 9)
    (hb0 : 0 ≤ F32.toRat (F32.fin b0)) (hb1 : F32.toRat (F32.fin b0) ≤ 176) :
    ∃ r : Int,
      F32.add (F32.fin b0)
        (F32.mul (F32.div (F32.sub (F32.fin m) (F32.fin a0)) (F32.sub (F32.fin a1) (F32.fin a0)))
          (F32.sub (F32.fin b1) (F32.fin b0))) = F32.fin r ∧
      |F32.toRat (F32.fin r) -
        (F32.toRat (F32.fin b0) +
          (F32.toRat (F32.fin m) - F32.toRat (F32.fin a0)) /
            (F32.toRat (F32.fin a1) - F32.toRat (F32.fin a0)) *
            (F32.toRat (F32.fin b1) - F32.toRat (F32.fin b0)))| ≤ 1 / 32768 := by
  generalize hX : F32.toRat (F32.fin m) = x at *
  generalize hA0 : F32.toRat (F32.fin a0) = A0 at *
  generalize hA1 : F32.toRat (F32.fin a1) = A1 at *
  generalize hB0 : F32.toRat (F32.fin b0) = B0 at *
  generalize hB1 : F32.toRat (F32.fin b1) = B1 at *
  have hδ : (0 : ℚ) < 1 / 2 ^ 24 := by positivity
  have hδv : (1 : ℚ) / 2 ^ 24 = 1 / 16777216 := by norm_num
  -- d = fl(x - a0)
  have hD0 : 0 < x - A0 := by linarith
  have hD9 : x - A0 ≤ 9 := by linarith
  have hDabs : |x - A0| ≤ 9 := by rw [abs_of_pos hD0]; exact hD9
  obtain ⟨d, hd, hde⟩ := F32_sub_val m a0 (by rw [hX, hA0]; linarith [hDabs, (by norm_num : (9 : ℚ) ≤ 2 ^ 10)])
  rw [hX, hA0] at hde
  have hde2 : |F32.toRat (F32.fin d) - (x - A0)| ≤ 10 / 2 ^ 24 :=
    le_trans hde (by have := round_bound_le _ 9 hDabs; linarith)
  -- w = fl(a1 - a0)
  have hWabs : |A1 - A0| ≤ 9 := by rw [abs_of_pos (by linarith)]; exact hW2
  obtain ⟨w, hw, hwe⟩ := F32_sub_val a1 a0 (by rw [hA1, hA0]; linarith [hWabs, (by norm_num : (9 : ℚ) ≤ 2 ^ 10)])
  rw [hA1, hA0] at hwe
  have hwe2 : |F32.toRat (F32.fin w) - (A1 - A0)| ≤ 10 / 2 ^ 24 :=
    le_trans hwe (by have := round_bound_le _ 9 hWabs; linarith)
  generalize hdv : F32.toRat (F32.fin d) = dv at *
  generalize hwv : F32.toRat (F32.fin w) = wv at *
  have hwlo : 1 ≤ wv := by
    have := (abs_le.mp hwe2).1
    rw [hδv] at hδ
    norm_num at this
    linarith
  have hwpos : 0 < w := by
    have h1 : 0 < wv := by linarith
    rw [← hwv] at h1
    unfold F32.toRat at h1
    have h2 : (0 : ℚ) < (w : ℚ) := by
      by_contra hc
      have : (w : ℚ) / 2 ^ 149 ≤ 0 := div_nonpos_of_nonpos_of_nonneg (not_lt.mp hc) (by positivity)
      linarith
    exact_mod_cast h2
  have hdabs : |dv| ≤ 10 := by
    have := abs_le.mp hde2
    norm_num at this
    rw [abs_le]; constructor <;> linarith
  -- t = fl(d / w)
  have hqabs : |dv / wv| ≤ 10 := by
    rw [abs_div, abs_of_pos (by linarith : 0 < wv), div_le_iff₀ (by linarith)]
    nlinarith [abs_nonneg dv]
  obtain ⟨t, ht, hte⟩ := F32_div_val d w hwpos (by rw [hdv, hwv]; linarith [(by norm_num : (10 : ℚ) ≤ 2 ^ 10)])
  rw [hdv, hwv] at hte
  have hte2 : |F32.toRat (F32.fin t) - dv / wv| ≤ 11 / 2 ^ 24 :=
    le_trans hte (by have := round_bound_le _ 10 hqabs; linarith)
  have hquot : |dv / wv - (x - A0) / (A1 - A0)| ≤ 11 / 10 * (10 / 2 ^ 24) :=
    quot_err (x - A0) (A1 - A0) dv wv (10 / 2 ^ 24) (le_of_lt hD0) (by linarith) hW1 hde2 hwe2
      (by norm_num)
  generalize htv : F32.toRat (F32.fin t) = tv at *
  have hT0 : 0 ≤ (x - A0) / (A1 - A0) := div_nonneg (le_of_lt hD0) (by linarith)
  have hT1 : (x - A0) / (A1 - A0) ≤ 1 := by
    rw [div_le_one (by linarith)]; linarith
  generalize hT : (x - A0) / (A1 - A0) = T at *
  have htT : |tv - T| ≤ 22 / 2 ^ 24 := by
    have h1 : tv - T = (tv - dv / wv) + (dv / wv - T) := by ring
    rw [h1]
    refine le_trans (abs_add _ _) ?_
    have : (11 : ℚ) / 10 * (10 / 2 ^ 24) = 11 / 2 ^ 24 := by ring
    linarith
  have htabs : |tv| ≤ 2 := by
    have := abs_le.mp htT
    norm_num at this
    rw [abs_le]; constructor <;> linarith
  -- h = fl(b1 - b0)
  have hHabs : |B1 - B0| ≤ 9 := by rw [abs_of_nonneg hH1]; exact hH2
  obtain ⟨h, hh, hhe⟩ := F32_sub_val b1 b0 (by rw [hB1, hB0]; linarith [hHabs, (by norm_num : (9 : ℚ) ≤ 2 ^ 10)])
  rw [hB1, hB0] at hhe
  have hhe2 : |F32.toRat (F32.fin h) - (B1 - B0)| ≤ 10 / 2 ^ 24 :=
    le_trans hhe (by have := round_bound_le _ 9 hHabs; linarith)
  generalize hhv : F32.toRat (F32.fin h) = hv at *
  have hhabs : |hv| ≤ 10 := by
    have := abs_le.mp hhe2
    norm_num at this
    rw [abs_le]; constructor <;> linarith
  -- p = fl(t * h)
  have hthabs : |tv * hv| ≤ 20 := by
    rw [abs_mul]
    calc |tv| * |hv| ≤ 2 * 10 := mul_le_mul htabs hhabs (abs_nonneg _) (by norm_num)
      _ = 20 := by norm_num
  obtain ⟨p, hp, hpe⟩ := F32_mul_val t h (by rw [htv, hhv]; linarith [(by norm_num : (20 : ℚ) ≤ 2 ^ 10)])
  rw [htv, hhv] at hpe
  have hpe2 : |F32.toRat (F32.fin p) - tv * hv| ≤ 21 / 2 ^ 24 :=
    le_trans hpe (by have := round_bound_le _ 20 hthabs; linarith)
  have hprod : |tv * hv - T * (B1 - B0)| ≤ 230 / 2 ^ 24 := by
    have h1 : tv * hv - T * (B1 - B0) = (tv - T) * hv + T * (hv - (B1 - B0)) := by ring
    rw [h1]
    refine le_trans (abs_add _ _) ?_
    rw [abs_mul, abs_mul, abs_of_nonneg hT0]
    have h2 : |tv - T| * |hv| ≤ 22 / 2 ^ 24 * 10 :=
      mul_le_mul htT hhabs (abs_nonneg _) (by positivity)
    have h3 : T * |hv - (B1 - B0)| ≤ 1 * (10 / 2 ^ 24) :=
      mul_le_mul hT1 hhe2 (abs_nonneg _) (by norm_num)
    have h4 : (22 : ℚ) / 2 ^ 24 * 10 + 1 * (10 / 2 ^ 24) = 230 / 2 ^ 24 := by ring
    linarith
  generalize hpv : F32.toRat (F32.fin p) = pv at *
  have hpT : |pv - T * (B1 - B0)| ≤ 251 / 2 ^ 24 := by
    have h1 : pv - T * (B1 - B0) = (pv - tv * hv) + (tv * hv - T * (B1 - B0)) := by ring
    rw [h1]
    refine le_trans (abs_add _ _) ?_
    have : (21 : ℚ) / 2 ^ 24 + 230 / 2 ^ 24 = 251 / 2 ^ 24 := by ring
    linarith
  have hTH0 : 0 ≤ T * (B1 - B0) := mul_nonneg hT0 hH1
  have hTH9 : T * (B1 - B0) ≤ 9 := by
    calc T * (B1 - B0) ≤ 1 * 9 := mul_le_mul hT1 hH2 hH1 (by norm_num)
      _ = 9 := by norm_num
  have hsum : |B0 + pv| ≤ 186 := by
    have := abs_le.mp hpT
    norm_num at this
    rw [abs_le]; constructor <;> linarith
  -- y = fl(b0 + p)
  obtain ⟨y, hy, hye⟩ := F32_add_val b0 p (by rw [hB0, hpv]; linarith [(by norm_num : (186 : ℚ) ≤ 2 ^ 10)])
  rw [hB0, hpv] at hye
  have hye2 : |F32.toRat (F32.fin y) - (B0 + pv)| ≤ 187 / 2 ^ 24 :=
    le_trans hye (by have := round_bound_le _ 186 hsum; linarith)
  refine ⟨y, by rw [hd, hw, ht, hh, hp, hy], ?_⟩
  have h1 : F32.toRat (F32.fin y) - (B0 + T * (B1 - B0)) =
      (F32.toRat (F32.fin y) - (B0 + pv)) + (pv - T * (B1 - B0)) := by ring
  rw [h1]
  refine le_trans (abs_add _ _) ?_
  have : (187 : ℚ) / 2 ^ 24 + 251 / 2 ^ 24 ≤ 1 / 32768 := by norm_num
  linarith

/-! ## The table in single precision -/

theorem getY32_eq_getX32 (inverse : Bool) (p : FovPair32) :
    getY32 inverse p = getX32 (!inverse) p := by
  cases inverse <;> rfl

theorem table32_fin (inverse : Bool) :
    ∀ j, j < 36 → getX32 inverse (entry32 fovValues32 j) =
      F32.fin (getX32 inverse (entry32 fovValues32 j)).units := by
  intro j hj
  cases inverse <;> interval_cases j <;> rfl

theorem table32_step (inverse : Bool) :
    ∀ j, j + 1 < 36 →
      2 * 2 ^ 149 ≤ (getX32 inverse (entry32 fovValues32 (j + 1))).units -
          (getX32 inverse (entry32 fovValues32 j)).units ∧
      (getX32 inverse (entry32 fovValues32 (j + 1))).units -
          (getX32 inverse (entry32 fovValues32 j)).units ≤ 9 * 2 ^ 149 ∧
      (getX32 inverse (entry32 fovValues32 (j + 1))).units -
          (getX32 inverse (entry32 fovValues32 j)).units ≤
        2 * ((getY32 inverse (entry32 fovValues32 (j + 1))).units -
          (getY32 inverse (entry32 fovValues32 j)).units) := by
  intro j hj
  have hj2 : j < 35 := by omega
  cases inverse <;> interval_cases j <;> decide!

theorem table32_range (inverse : Bool) :
    ∀ j, j < 36 →
      0 ≤ (getX32 inverse (entry32 fovValues32 j)).units ∧
      (getX32 inverse (entry32 fovValues32 j)).units ≤ 176 * 2 ^ 149 := by
  intro j hj
  cases inverse <;> interval_cases j <;> decide!

/-- The value of the source-axis entry `j`. -/
theorem toRat_fin_units (m : Int) : F32.toRat (F32.fin m) = (m : ℚ) / 2 ^ 149 := rfl

theorem toRat_sub_ge (a b k : Int) (h : k * 2 ^ 149 ≤ a - b) :
    (k : ℚ) ≤ F32.toRat (F32.fin a) - F32.toRat (F32.fin b) := by
  have hq : ((k * 2 ^ 149 : Int) : ℚ) ≤ ((a - b : Int) : ℚ) := Int.cast_le.mpr h
  push_cast at hq
  rw [toRat_fin_units, toRat_fin_units, ← sub_div, le_div_iff₀ (by positivity)]
  linarith

theorem toRat_sub_le (a b k : Int) (h : a - b ≤ k * 2 ^ 149) :
    F32.toRat (F32.fin a) - F32.toRat (F32.fin b) ≤ (k : ℚ) := by
  have hq : ((a - b : Int) : ℚ) ≤ ((k * 2 ^ 149 : Int) : ℚ) := Int.cast_le.mpr h
  push_cast at hq
  rw [toRat_fin_units, toRat_fin_units, ← sub_div, div_le_iff₀ (by positivity)]
  linarith

theorem toRat_lt_iff (a b : Int) : F32.toRat (F32.fin a) < F32.toRat (F32.fin b) ↔ a < b := by
  rw [toRat_fin_units, toRat_fin_units, div_lt_div_iff_of_pos_right (by positivity)]
  exact Int.cast_lt

theorem toRat_le_iff (a b : Int) : F32.toRat (F32.fin a) ≤ F32.toRat (F32.fin b) ↔ a ≤ b := by
  rw [toRat_fin_units, toRat_fin_units, div_le_div_iff_of_pos_right (by positivity)]
  exact Int.cast_le

/-! ## The segment loop in single precision -/

theorem getX32_entry (inverse : Bool) (j : Nat) (hj : j < 36) :
    getX32 inverse (entry32 fovValues32 j) = F32.fin (axisUnits inverse j) :=
  table32_fin inverse j hj

theorem getY32_entry (inverse : Bool) (j : Nat) (hj : j < 36) :
    getY32 inverse (entry32 fovValues32 j) = F32.fin (axisUnits (!inverse) j) := by
  rw [getY32_eq_getX32]; exact table32_fin (!inverse) j hj

theorem axisUnits_step (inverse : Bool) (j : Nat) (hj : j + 1 < 36) :
    2 * 2 ^ 149 ≤ axisUnits inverse (j + 1) - axisUnits inverse j ∧
      axisUnits inverse (j + 1) - axisUnits inverse j ≤ 9 * 2 ^ 149 ∧
      axisUnits inverse (j + 1) - axisUnits inverse j ≤
        2 * (axisUnits (!inverse) (j + 1) - axisUnits (!inverse) j) := by
  have h := table32_step inverse j hj
  rw [getY32_eq_getX32, getY32_eq_getX32] at h
  exact h

theorem axisUnits_range (inverse : Bool) (j : Nat) (hj : j < 36) :
    0 ≤ axisUnits inverse j ∧ axisUnits inverse j ≤ 176 * 2 ^ 149 :=
  table32_range inverse j hj

theorem axisValue_step (inverse : Bool) (j : Nat) (hj : j + 1 < 36) :
    2 ≤ axisValue inverse (j + 1) - axisValue inverse j ∧
      axisValue inverse (j + 1) - axisValue inverse j ≤ 9 ∧
      axisValue inverse (j + 1) - axisValue inverse j ≤
        2 * (axisValue (!inverse) (j + 1) - axisValue (!inverse) j) := by
  obtain ⟨h1, h2, h3⟩ := axisUnits_step inverse j hj
  refine ⟨?_, ?_, ?_⟩
  · exact_mod_cast toRat_sub_ge _ _ 2 h1
  · exact_mod_cast toRat_sub_le _ _ 9 h2
  · unfold axisValue
    rw [toRat_fin_units, toRat_fin_units, toRat_fin_units, toRat_fin_units, ← sub_div, ← sub_div,
      ← mul_div_assoc, div_le_div_iff_of_pos_right (by positivity)]
    exact_mod_cast h3

theorem axisValue_range (inverse : Bool) (j : Nat) (hj : j < 36) :
    0 ≤ axisValue inverse j ∧ axisValue inverse j ≤ 176 := by
  obtain ⟨h1, h2⟩ := axisUnits_range inverse j hj
  unfold axisValue
  rw [toRat_fin_units]
  constructor
  · exact div_nonneg (by exact_mod_cast h1) (by positivity)
  · rw [div_le_iff₀ (by positivity)]
    exact_mod_cast h2

theorem segmentLoop32_spec (m : Int) (inverse : Bool) (hx : m ≤ axisUnits inverse 35) :
    ∀ count i, i + count = 36 → 1 ≤ i → axisUnits inverse (i - 1) < m →
      ∃ j, i ≤ j ∧ j < 36 ∧ axisUnits inverse (j - 1) < m ∧ m ≤ axisUnits inverse j ∧
        segmentLoop32 fovValues32 (F32.fin m) inverse i count =
          F32.add (F32.fin (axisUnits (!inverse) (j - 1)))
            (F32.mul
              (F32.div (F32.sub (F32.fin m) (F32.fin (axisUnits inverse (j - 1))))
                (F32.sub (F32.fin (axisUnits inverse j)) (F32.fin (axisUnits inverse (j - 1)))))
              (F32.sub (F32.fin (axisUnits (!inverse) j))
                (F32.fin (axisUnits (!inverse) (j - 1))))) := by
  intro count
  induction count with
  | zero =>
    intro i hi h1 hprev
    have : i - 1 = 35 := by omega
    rw [this] at hprev
    omega
  | succ count ih =>
    intro i hi h1 hprev
    have hi36 : i < 36 := by omega
    unfold segmentLoop32
    simp only [getX32_entry inverse i hi36, getX32_entry inverse (i - 1) (by omega),
      getY32_entry inverse i hi36, getY32_entry inverse (i - 1) (by omega)]
    by_cases hle : m ≤ axisUnits inverse i
    · have hdec : F32.le (F32.fin m) (F32.fin (axisUnits inverse i)) = true := by
        simp [F32.le, hle]
      rw [if_pos hdec]
      exact ⟨i, le_refl _, hi36, hprev, hle, rfl⟩
    · have hdec : ¬ F32.le (F32.fin m) (F32.fin (axisUnits inverse i)) = true := by
        simp [F32.le, hle]
      rw [if_neg hdec]
      obtain ⟨j, hj1, hj2, hj3, hj4, hj5⟩ :=
        ih (i + 1) (by omega) (by omega) (by simpa using lt_of_not_le hle)
      exact ⟨j, by omega, hj2, hj3, hj4, hj5⟩

/-- Strictly inside the table range the compiled `ConvertFormat` returns a finite float
within `2^-15` of the exact interpolation on the segment that brackets the input. -/
theorem convertOver_interior (m : Int) (inverse : Bool)
    (hlo : axisUnits inverse 0 < m) (hhi : m < axisUnits inverse 35) :
    ∃ i r, i + 1 < 36 ∧ axisUnits inverse i < m ∧ m ≤ axisUnits inverse (i + 1) ∧
      convertOver fovValues32 (F32.fin m) inverse = F32.fin r ∧
      |F32.toRat (F32.fin r) - exactLerp inverse i (F32.toRat (F32.fin m))| ≤ 1 / 32768 := by
  obtain ⟨j, hj1, hj2, hj3, hj4, hj5⟩ :=
    segmentLoop32_spec m inverse (le_of_lt hhi) 35 1 rfl (le_refl _) hlo
  obtain ⟨i, rfl⟩ : ∃ i, j = i + 1 := ⟨j - 1, by omega⟩
  simp only [Nat.add_sub_cancel] at hj3 hj5
  have hconv : convertOver fovValues32 (F32.fin m) inverse =
      segmentLoop32 fovValues32 (F32.fin m) inverse 1 35 := by
    have hlen : fovValues32.length = 36 := rfl
    unfold convertOver
    simp only [hlen, Nat.reduceSub, getX32_entry inverse 0 (by omega),
      getX32_entry inverse 35 (by omega)]
    have h1 : ¬ F32.le (F32.fin m) (F32.fin (axisUnits inverse 0)) = true := by
      simp [F32.le, hlo]
    have h2 : ¬ F32.le (F32.fin (axisUnits inverse 35)) (F32.fin m) = true := by
      simp [F32.le, hhi]
    simp [h1, h2]
  have hstepA := axisValue_step inverse i hj2
  have hstepB := axisValue_step (!inverse) i hj2
  have hrB := axisValue_range (!inverse) i (by omega)
  obtain ⟨r, hr, he⟩ := interp32_err m (axisUnits inverse i) (axisUnits inverse (i + 1))
    (axisUnits (!inverse) i) (axisUnits (!inverse) (i + 1))
    ((toRat_lt_iff _ _).mpr hj3) ((toRat_le_iff _ _).mpr hj4)
    hstepA.1 hstepA.2.1 (by have := hstepB.1; unfold axisValue at this; linarith)
    hstepB.2.1 hrB.1 hrB.2
  exact ⟨i, r, hj2, hj3, hj4, by rw [hconv, hj5, hr], he⟩

/-! ## The exact interpolant of the compiled table -/

theorem axisValue_mono (inverse : Bool) {i j : Nat} (hij : i < j) (hj : j < 36) :
    axisValue inverse i + 2 ≤ axisValue inverse j := by
  induction j with
  | zero => omega
  | succ k ih =>
    have hs := (axisValue_step inverse k hj).1
    rcases Nat.lt_succ_iff_lt_or_eq.mp hij with h | h
    · have := ih h (by omega); linarith
    · subst h; linarith

theorem axisValue_le (inverse : Bool) {i j : Nat} (hij : i ≤ j) (hj : j < 36) :
    axisValue inverse i ≤ axisValue inverse j := by
  rcases Nat.lt_or_eq_of_le hij with h | h
  · have := axisValue_mono inverse h hj; linarith
  · subst h; exact le_refl _

/-- On one segment the exact interpolant going back rises, and by at most twice the
distance. -/
theorem exactLerp_back_slope (inverse : Bool) (i : Nat) (hi : i + 1 < 36) {u v : ℚ}
    (huv : u ≤ v) :
    0 ≤ exactLerp (!inverse) i v - exactLerp (!inverse) i u ∧
      exactLerp (!inverse) i v - exactLerp (!inverse) i u ≤ 2 * (v - u) := by
  obtain ⟨hA1, _, hA3⟩ := axisValue_step inverse i hi
  obtain ⟨hB1, _, _⟩ := axisValue_step (!inverse) i hi
  have hBpos : 0 < axisValue (!inverse) (i + 1) - axisValue (!inverse) i := by linarith
  have hdiff : exactLerp (!inverse) i v - exactLerp (!inverse) i u =
      (v - u) * ((axisValue inverse (i + 1) - axisValue inverse i) /
        (axisValue (!inverse) (i + 1) - axisValue (!inverse) i)) := by
    unfold exactLerp
    simp only [Bool.not_not]
    field_simp
    ring
  have hs0 : 0 ≤ (axisValue inverse (i + 1) - axisValue inverse i) /
      (axisValue (!inverse) (i + 1) - axisValue (!inverse) i) :=
    div_nonneg (by linarith) (le_of_lt hBpos)
  have hs2 : (axisValue inverse (i + 1) - axisValue inverse i) /
      (axisValue (!inverse) (i + 1) - axisValue (!inverse) i) ≤ 2 := by
    rw [div_le_iff₀ hBpos]; linarith
  rw [hdiff]
  constructor
  · exact mul_nonneg (by linarith) hs0
  · have := mul_le_mul_of_nonneg_left hs2 (by linarith : 0 ≤ v - u)
    linarith

theorem exactLerp_lower (inverse : Bool) (i : Nat) :
    exactLerp inverse i (axisValue inverse i) = axisValue (!inverse) i := by
  unfold exactLerp
  simp

theorem exactLerp_upper (inverse : Bool) (i : Nat) (hi : i + 1 < 36) :
    exactLerp inverse i (axisValue inverse (i + 1)) = axisValue (!inverse) (i + 1) := by
  have hA1 := (axisValue_step inverse i hi).1
  have hne : axisValue inverse (i + 1) - axisValue inverse i ≠ 0 := by
    intro h; rw [h] at hA1; norm_num at hA1
  unfold exactLerp
  rw [div_self hne]
  ring

theorem exactLerp_back (inverse : Bool) (i : Nat) (hi : i + 1 < 36) (x : ℚ) :
    exactLerp (!inverse) i (exactLerp inverse i x) = x := by
  have hA1 := (axisValue_step inverse i hi).1
  have hB1 := (axisValue_step (!inverse) i hi).1
  have hneA : axisValue inverse (i + 1) - axisValue inverse i ≠ 0 := by
    intro h; rw [h] at hA1; norm_num at hA1
  have hneB : axisValue (!inverse) (i + 1) - axisValue (!inverse) i ≠ 0 := by
    intro h; rw [h] at hB1; norm_num at hB1
  unfold exactLerp
  simp only [Bool.not_not]
  field_simp
  ring

theorem exactLerp_range (inverse : Bool) (i : Nat) (hi : i + 1 < 36) {x : ℚ}
    (h0 : axisValue inverse i < x) (h1 : x ≤ axisValue inverse (i + 1)) :
    axisValue (!inverse) i < exactLerp inverse i x ∧
      exactLerp inverse i x ≤ axisValue (!inverse) (i + 1) := by
  have hA1 := (axisValue_step inverse i hi).1
  have hB1 := (axisValue_step (!inverse) i hi).1
  have hApos : 0 < axisValue inverse (i + 1) - axisValue inverse i := by linarith
  have hBpos : 0 < axisValue (!inverse) (i + 1) - axisValue (!inverse) i := by linarith
  have ht0 : 0 < (x - axisValue inverse i) / (axisValue inverse (i + 1) - axisValue inverse i) :=
    div_pos (by linarith) hApos
  have ht1 : (x - axisValue inverse i) / (axisValue inverse (i + 1) - axisValue inverse i) ≤ 1 := by
    rw [div_le_one hApos]; linarith
  have hm0 := mul_pos ht0 hBpos
  have hm1 := mul_le_mul_of_nonneg_right ht1 (le_of_lt hBpos)
  unfold exactLerp
  constructor <;> linarith

/-- Going back from a value close to the exact image of `x` on the segment bracketing
that value lands close to `x`. -/
theorem exactLerp_back_close (inverse : Bool) {i l : Nat} (hi : i + 1 < 36) (hl : l + 1 < 36)
    {x y' e : ℚ} (hx0 : axisValue inverse i < x) (hx1 : x ≤ axisValue inverse (i + 1))
    (hy0 : axisValue (!inverse) l < y') (hy1 : y' ≤ axisValue (!inverse) (l + 1))
    (he : |y' - exactLerp inverse i x| ≤ e) (he1 : e ≤ 1) :
    |exactLerp (!inverse) l y' - x| ≤ 2 * e := by
  obtain ⟨hr0, hr1⟩ := exactLerp_range inverse i hi hx0 hx1
  have hxb := exactLerp_back inverse i hi x
  obtain ⟨he0, he2⟩ := abs_le.mp he
  generalize hy : exactLerp inverse i x = y at *
  rcases Nat.lt_trichotomy l i with hlt | heq | hgt
  · -- the value fell into an earlier segment
    have hli : l + 1 = i := by
      by_contra hne
      have := axisValue_mono (!inverse) (by omega : l + 1 < i) (by omega)
      linarith
    subst hli
    have hup := exactLerp_upper (!inverse) l hl
    have hlow := exactLerp_lower (!inverse) (l + 1)
    simp only [Bool.not_not] at hup hlow
    obtain ⟨s1, s2⟩ := exactLerp_back_slope inverse l hl hy1
    obtain ⟨t1, t2⟩ := exactLerp_back_slope inverse (l + 1) hi (le_of_lt hr0)
    rw [hup] at s1 s2
    rw [hlow, hxb] at t1 t2
    rw [abs_le]; constructor <;> linarith
  · subst heq
    rcases le_total y y' with h | h
    · obtain ⟨s1, s2⟩ := exactLerp_back_slope inverse l hl h
      rw [hxb] at s1 s2
      rw [abs_le]; constructor <;> linarith
    · obtain ⟨s1, s2⟩ := exactLerp_back_slope inverse l hl h
      rw [hxb] at s1 s2
      rw [abs_le]; constructor <;> linarith
  · -- the value fell into a later segment
    have hli : i + 1 = l := by
      by_contra hne
      have := axisValue_mono (!inverse) (by omega : i + 1 < l) (by omega)
      linarith
    subst hli
    have hup := exactLerp_upper (!inverse) i hi
    have hlow := exactLerp_lower (!inverse) (i + 1)
    simp only [Bool.not_not] at hup hlow
    obtain ⟨s1, s2⟩ := exactLerp_back_slope inverse i hi hr1
    obtain ⟨t1, t2⟩ := exactLerp_back_slope inverse (i + 1) hl (le_of_lt hy0)
    rw [hup, hxb] at s1 s2
    rw [hlow] at t1 t2
    rw [abs_le]; constructor <;> linarith

theorem exactLerp_low_close (inverse : Bool) {i : Nat} (hi : i + 1 < 36)
    {x y' e : ℚ} (hx0 : axisValue inverse i < x) (hx1 : x ≤ axisValue inverse (i + 1))
    (hy : y' ≤ axisValue (!inverse) 0)
    (he : |y' - exactLerp inverse i x| ≤ e) (he1 : e ≤ 1) :
    |axisValue inverse 0 - x| ≤ 2 * e := by
  obtain ⟨hr0, hr1⟩ := exactLerp_range inverse i hi hx0 hx1
  have hxb := exactLerp_back inverse i hi x
  obtain ⟨he0, he2⟩ := abs_le.mp he
  have hi0 : i = 0 := by
    by_contra hne
    have := axisValue_mono (!inverse) (Nat.pos_of_ne_zero hne) (by omega)
    linarith
  subst hi0
  have hlow := exactLerp_lower (!inverse) 0
  simp only [Bool.not_not] at hlow
  obtain ⟨t1, t2⟩ := exactLerp_back_slope inverse 0 hi (le_of_lt hr0)
  rw [hlow, hxb] at t1 t2
  rw [abs_le]; constructor <;> linarith

theorem exactLerp_high_close (inverse : Bool) {i : Nat} (hi : i + 1 < 36)
    {x y' e : ℚ} (hx0 : axisValue inverse i < x) (hx1 : x ≤ axisValue inverse (i + 1))
    (hy : axisValue (!inverse) 35 ≤ y')
    (he : |y' - exactLerp inverse i x| ≤ e) (he1 : e ≤ 1) :
    |axisValue inverse 35 - x| ≤ 2 * e := by
  obtain ⟨hr0, hr1⟩ := exactLerp_range inverse i hi hx0 hx1
  have hxb := exactLerp_back inverse i hi x
  obtain ⟨he0, he2⟩ := abs_le.mp he
  have hi0 : i = 34 := by
    by_contra hne
    have := axisValue_mono (!inverse) (by omega : i + 1 < 35) (by omega)
    linarith
  subst hi0
  have hup := exactLerp_upper (!inverse) 34 hi
  simp only [Bool.not_not] at hup
  obtain ⟨s1, s2⟩ := exactLerp_back_slope inverse 34 hi hr1
  rw [hup, hxb] at s1 s2
  rw [abs_le]; constructor <;> linarith

/-! ## Exact round trips -/

theorem ConvertFormat32_eq (x : F32) (inverse : Bool) :
    ConvertFormat32 x inverse = convertOver fovValues32 x inverse := by
  unfold ConvertFormat32
  rw [fovTable32_eq]

theorem convertOver_low (x : F32) (inverse : Bool)
    (h : F32.le x (getX32 inverse (entry32 fovValues32 0)) = true) :
    convertOver fovValues32 x inverse = getY32 inverse (entry32 fovValues32 0) := by
  unfold convertOver
  rw [if_neg (by decide)]
  simp only [h, if_true]

theorem F32_le_first_of_last_le (x : F32) (inverse : Bool)
    (h : F32.le (getX32 inverse (entry32 fovValues32 35)) x = true) :
    F32.le x (getX32 inverse (entry32 fovValues32 0)) = false := by
  have h0 : ∃ a b, getX32 inverse (entry32 fovValues32 0) = F32.fin a ∧
      getX32 inverse (entry32 fovValues32 35) = F32.fin b ∧ a < b := by
    cases inverse
    · exact ⟨_, _, rfl, rfl, by decide!⟩
    · exact ⟨_, _, rfl, rfl, by decide!⟩
  obtain ⟨a, b, ha, hb, hab⟩ := h0
  rw [ha]
  rw [hb] at h
  cases x with
  | fin m =>
    simp only [F32.le, decide_eq_true_eq] at h
    simp only [F32.le, decide_eq_false_iff_not]
    omega
  | posInf => rfl
  | negInf => simp [F32.le] at h
  | nan => rfl

theorem convertOver_high (x : F32) (inverse : Bool)
    (h : F32.le (getX32 inverse (entry32 fovValues32 35)) x = true) :
    convertOver fovValues32 x inverse = getY32 inverse (entry32 fovValues32 35) := by
  have hlen : fovValues32.length - 1 = 35 := rfl
  unfold convertOver
  rw [if_neg (by decide), hlen]
  simp only [F32_le_first_of_last_le x inverse h, h, if_true, Bool.false_eq_true, if_false]

theorem convertOver_back_first (inverse : Bool) :
    convertOver fovValues32 (getY32 inverse (entry32 fovValues32 0)) (!inverse) =
      getX32 inverse (entry32 fovValues32 0) := by
  cases inverse <;> decide!

theorem convertOver_back_last (inverse : Bool) :
    convertOver fovValues32 (getY32 inverse (entry32 fovValues32 35)) (!inverse) =
      getX32 inverse (entry32 fovValues32 35) := by
  cases inverse <;> decide!

theorem convertOver_entries (inverse : Bool) :
    ∀ i, i < 36 →
      convertOver fovValues32
          (convertOver fovValues32 (getX32 inverse (entry32 fovValues32 i)) inverse) (!inverse) =
        getX32 inverse (entry32 fovValues32 i) := by
  intro i hi
  cases inverse <;> interval_cases i <;> decide!

/-! ## The round trip in single precision -/

/-- The round trip of any finite input through the compiled code is finite and within
`1/10000` of the input clamped to the table range. -/
theorem convertOver_round_trip_close (m : Int) (inverse : Bool) :
    ∃ r : Int,
      convertOver fovValues32 (convertOver fovValues32 (F32.fin m) inverse) (!inverse) =
        F32.fin r ∧
      |F32.toRat (F32.fin r) -
        max (axisValue inverse 0) (min (F32.toRat (F32.fin m)) (axisValue inverse 35))| ≤
        1 / 10000 := by
  have h035 : axisValue inverse 0 ≤ axisValue inverse 35 :=
    axisValue_le inverse (by omega) (by omega)
  by_cases h1 : m ≤ axisUnits inverse 0
  · have hle : F32.le (F32.fin m) (getX32 inverse (entry32 fovValues32 0)) = true := by
      rw [getX32_entry inverse 0 (by omega)]; simp [F32.le, h1]
    refine ⟨axisUnits inverse 0, ?_, ?_⟩
    · rw [convertOver_low _ inverse hle, convertOver_back_first, getX32_entry inverse 0 (by omega)]
    · have hv : F32.toRat (F32.fin m) ≤ axisValue inverse 0 := (toRat_le_iff _ _).mpr h1
      rw [min_eq_left (le_trans hv h035), max_eq_left hv]
      unfold axisValue
      simp
  · by_cases h2 : axisUnits inverse 35 ≤ m
    · have hle : F32.le (getX32 inverse (entry32 fovValues32 35)) (F32.fin m) = true := by
        rw [getX32_entry inverse 35 (by omega)]; simp [F32.le, h2]
      refine ⟨axisUnits inverse 35, ?_, ?_⟩
      · rw [convertOver_high _ inverse hle, convertOver_back_last,
          getX32_entry inverse 35 (by omega)]
      · have hv : axisValue inverse 35 ≤ F32.toRat (F32.fin m) := (toRat_le_iff _ _).mpr h2
        rw [min_eq_right hv, max_eq_right h035]
        unfold axisValue
        simp
    · have hlo : axisUnits inverse 0 < m := lt_of_not_le h1
      have hhi : m < axisUnits inverse 35 := lt_of_not_le h2
      have hxlo : axisValue inverse 0 < F32.toRat (F32.fin m) := (toRat_lt_iff _ _).mpr hlo
      have hxhi : F32.toRat (F32.fin m) < axisValue inverse 35 := (toRat_lt_iff _ _).mpr hhi
      rw [min_eq_left (le_of_lt hxhi), max_eq_right (le_of_lt hxlo)]
      obtain ⟨i, r1, hi, hi0, hi1, hc1, he1⟩ := convertOver_interior m inverse hlo hhi
      have hx0 : axisValue inverse i < F32.toRat (F32.fin m) := (toRat_lt_iff _ _).mpr hi0
      have hx1 : F32.toRat (F32.fin m) ≤ axisValue inverse (i + 1) := (toRat_le_iff _ _).mpr hi1
      rw [hc1]
      by_cases h3 : r1 ≤ axisUnits (!inverse) 0
      · have hle : F32.le (F32.fin r1) (getX32 (!inverse) (entry32 fovValues32 0)) = true := by
          rw [getX32_entry (!inverse) 0 (by omega)]; simp [F32.le, h3]
        refine ⟨axisUnits inverse 0, ?_, ?_⟩
        · rw [convertOver_low _ (!inverse) hle, getY32_entry (!inverse) 0 (by omega),
            Bool.not_not]
        · have hy : F32.toRat (F32.fin r1) ≤ axisValue (!inverse) 0 := (toRat_le_iff _ _).mpr h3
          have := exactLerp_low_close inverse hi hx0 hx1 hy he1 (by norm_num)
          refine le_trans this ?_
          norm_num
      · by_cases h4 : axisUnits (!inverse) 35 ≤ r1
        · have hle : F32.le (getX32 (!inverse) (entry32 fovValues32 35)) (F32.fin r1) = true := by
            rw [getX32_entry (!inverse) 35 (by omega)]; simp [F32.le, h4]
          refine ⟨axisUnits inverse 35, ?_, ?_⟩
          · rw [convertOver_high _ (!inverse) hle, getY32_entry (!inverse) 35 (by omega),
              Bool.not_not]
          · have hy : axisValue (!inverse) 35 ≤ F32.toRat (F32.fin r1) :=
              (toRat_le_iff _ _).mpr h4
            have := exactLerp_high_close inverse hi hx0 hx1 hy he1 (by norm_num)
            refine le_trans this ?_
            norm_num
        · obtain ⟨l, r2, hl, hl0, hl1, hc2, he2⟩ :=
            convertOver_interior r1 (!inverse) (lt_of_not_le h3) (lt_of_not_le h4)
          have hy0 : axisValue (!inverse) l < F32.toRat (F32.fin r1) := (toRat_lt_iff _ _).mpr hl0
          have hy1 : F32.toRat (F32.fin r1) ≤ axisValue (!inverse) (l + 1) :=
            (toRat_le_iff _ _).mpr hl1
          have hback := exactLerp_back_close inverse hi hl hx0 hx1 hy0 hy1 he1 (by norm_num)
          refine ⟨r2, hc2, ?_⟩
          have hsplit : F32.toRat (F32.fin r2) - F32.toRat (F32.fin m) =
              (F32.toRat (F32.fin r2) - exactLerp (!inverse) l (F32.toRat (F32.fin r1))) +
              (exactLerp (!inverse) l (F32.toRat (F32.fin r1)) - F32.toRat (F32.fin m)) := by
            ring
          rw [hsplit]
          refine le_trans (abs_add _ _) ?_
          have : (1 : ℚ) / 32768 + 2 * (1 / 32768) ≤ 1 / 10000 := by norm_num
          linarith

/-! ## Claim about the round trip -/

/-- C19 as stated fails on the compiled code: 60 lies inside the internal range of
the table, `ConvertFormat(60, false)` is `90.8759308` and converting that back gives
`59.9999962`, one spacing below 60 (values in units of `2^-149`). -/
theorem ConvertFormat32_round_trip_60 :
    F32.le (entry32 fovTable32 0).internalFov (F32.lit 60 0) = true ∧
      F32.le (F32.lit 60 0) (entry32 fovTable32 (fovTable32.length - 1)).internalFov = true ∧
      F32.lit 60 0 = F32.fin (15728640 * 2 ^ 131) ∧
      ConvertFormat32 (F32.lit 60 0) false = F32.fin (11911290 * 2 ^ 132) ∧
      ConvertFormat32 (ConvertFormat32 (F32.lit 60 0) false) true =
        F32.fin (15728639 * 2 ^ 131) ∧
      ConvertFormat32 (ConvertFormat32 (F32.lit 60 0) false) true ≠ F32.lit 60 0 := by
  simp only [ConvertFormat32_eq, fovTable32_eq]
  decide!

/-- C19 amended. In the compiled single-precision code the two conversion directions
are mutual inverses on the table range up to rounding. For every finite `x` the round
trip is finite and within `1/10000` of `x` clamped to the first and last source-axis
values. It is exactly the clamped value where no rounding is involved: an input at or
below the first source-axis value comes back as that first value, an input at or
above the last one as that last value, and every table entry's value unchanged. A NaN
input takes the fallback return and comes back as the last value. All of this holds in
both directions. -/
theorem ConvertFormat32_round_trip (inverse : Bool) :
    (∀ m : Int, ∃ r : Int,
      ConvertFormat32 (ConvertFormat32 (F32.fin m) inverse) (!inverse) = F32.fin r ∧
      |F32.toRat (F32.fin r) -
        max (F32.toRat (getX32 inverse (entry32 fovTable32 0)))
          (min (F32.toRat (F32.fin m))
            (F32.toRat (getX32 inverse (entry32 fovTable32 (fovTable32.length - 1)))))| ≤
        1 / 10000) ∧
    (∀ x, F32.le x (getX32 inverse (entry32 fovTable32 0)) = true →
      ConvertFormat32 (ConvertFormat32 x inverse) (!inverse) =
        getX32 inverse (entry32 fovTable32 0)) ∧
    (∀ x, F32.le (getX32 inverse (entry32 fovTable32 (fovTable32.length - 1))) x = true →
      ConvertFormat32 (ConvertFormat32 x inverse) (!inverse) =
        getX32 inverse (entry32 fovTable32 (fovTable32.length - 1))) ∧
    (∀ p, p ∈ fovTable32 →
      ConvertFormat32 (ConvertFormat32 (getX32 inverse p) inverse) (!inverse) =
        getX32 inverse p) ∧
    ConvertFormat32 (ConvertFormat32 F32.nan inverse) (!inverse) =
      getX32 inverse (entry32 fovTable32 (fovTable32.length - 1)) := by
  have hlen : fovValues32.length - 1 = 35 := rfl
  simp only [ConvertFormat32_eq, fovTable32_eq, hlen]
  refine ⟨?_, ?_, ?_, ?_, ?_⟩
  · intro m
    have h := convertOver_round_trip_close m inverse
    unfold axisValue axisUnits at h
    rw [← table32_fin inverse 0 (by omega), ← table32_fin inverse 35 (by omega)] at h
    exact h
  · intro x h
    rw [convertOver_low x inverse h]
    exact convertOver_back_first inverse
  · intro x h
    rw [convertOver_high x inverse h]
    exact convertOver_back_last inverse
  · intro p hp
    obtain ⟨i, hi, rfl⟩ := List.mem_iff_getElem.mp hp
    have hlen2 : fovValues32.length = 36 := rfl
    have h := convertOver_entries inverse i (hlen2 ▸ hi)
    simpa [entry32, List.getD_eq_getElem, hi] using h
  · cases inverse <;> decide!

/-- Instances of amended C19 in the forward direction: the round trip of 60 is within
`1/10000` of 60, `-100` comes back as the first internal value and `1000` as the
last. -/
theorem ConvertFormat32_round_trip_witness :
    (∃ r : Int,
      ConvertFormat32 (ConvertFormat32 (F32.fin (60 * 2 ^ 149)) false) true = F32.fin r ∧
      |F32.toRat (F32.fin r) -
        max (F32.toRat (getX32 false (entry32 fovTable32 0)))
          (min (F32.toRat (F32.fin (60 * 2 ^ 149)))
            (F32.toRat (getX32 false (entry32 fovTable32 (fovTable32.length - 1)))))| ≤
        1 / 10000) ∧
      F32.le (F32.round (-100 * 2 ^ 149) 1) (getX32 false (entry32 fovTable32 0)) = true ∧
      ConvertFormat32 (ConvertFormat32 (F32.round (-100 * 2 ^ 149) 1) false) true =
        F32.lit 33750209 8 ∧
      ConvertFormat32 (ConvertFormat32 (F32.lit 1000 0) false) true = F32.lit 17218605040 8 :=
  ⟨(ConvertFormat32_round_trip false).1 (60 * 2 ^ 149),
    by rw [fovTable32_eq]; decide!,
    (ConvertFormat32_round_trip false).2.1 (F32.round (-100 * 2 ^ 149) 1)
      (by rw [fovTable32_eq]; decide!),
    (ConvertFormat32_round_trip false).2.2.1 (F32.lit 1000 0) (by rw [fovTable32_eq]; decide!)⟩

end FovControl
